import Mathlib

/-!
# Verification of the SIREN fog-cloud scheduler core

Shallow embedding of the MD-GWO optimizer, its candidate encoding, and the
domain cost model (`fog_gwo_scheduler`), together with proofs of the
specification claims about them.

Python floats are idealized as real numbers.  Where the code deliberately
produces IEEE special values (`float('inf')` from guarded divisions,
`exp(-(0/3600) * inf) = nan`), values are modelled by the four-constructor
type `Fl` (nan / +inf / -inf / finite real) whose arithmetic follows IEEE
semantics exactly on the reachable cases.  Python `ZeroDivisionError` on an
exactly-zero denominator of an unguarded division is idealized as Lean's
`x / 0 = 0` (no claim exercises those inputs); the `AttributeError` raised by
`task_total_time` on a missing host is modelled with `Option` (`none` =
exception) because `penalty_function` can actually reach it.
-/

namespace SIREN

/-- IEEE-style value: NaN, +∞, -∞ or a finite real.  Models the Python
floats flowing through the cost model, where `float('inf')` and `nan` are
reachable. -/
inductive Fl where
  | nan : Fl
  | inf : Fl
  | ninf : Fl
  | fin (x : ℝ) : Fl

namespace Fl

/-- IEEE addition (exact on finite values). -/
def add : Fl → Fl → Fl
  | nan, _ => nan
  | _, nan => nan
  | inf, ninf => nan
  | ninf, inf => nan
  | inf, _ => inf
  | _, inf => inf
  | ninf, _ => ninf
  | _, ninf => ninf
  | fin a, fin b => fin (a + b)

/-- IEEE negation. -/
def neg : Fl → Fl
  | nan => nan
  | inf => ninf
  | ninf => inf
  | fin a => fin (-a)

/-- IEEE subtraction (`a - b = a + (-b)`, exact on finite values). -/
def sub (a b : Fl) : Fl := a.add b.neg

/-- IEEE multiplication (exact on finite values); `0 * ∞ = nan`. -/
noncomputable def mul : Fl → Fl → Fl
  | nan, _ => nan
  | _, nan => nan
  | inf, inf => inf
  | inf, ninf => ninf
  | ninf, inf => ninf
  | ninf, ninf => inf
  | inf, fin a => if 0 < a then inf else if a < 0 then ninf else nan
  | fin a, inf => if 0 < a then inf else if a < 0 then ninf else nan
  | ninf, fin a => if 0 < a then ninf else if a < 0 then inf else nan
  | fin a, ninf => if 0 < a then ninf else if a < 0 then inf else nan
  | fin a, fin b => fin (a * b)

/-- Division by a (positive) natural number, as used for the mean over the
task set.  The guard in `system_reliability` keeps the divisor positive. -/
noncomputable def divNat : Fl → ℕ → Fl
  | nan, _ => nan
  | inf, _ => inf
  | ninf, _ => ninf
  | fin a, n => fin (a / (n : ℝ))

/-- Python comparison `x < d` against a finite float `d` (false for NaN). -/
def ltR : Fl → ℝ → Prop
  | nan, _ => False
  | inf, _ => False
  | ninf, _ => True
  | fin a, d => a < d

/-- Python comparison `x > d` against a finite float `d` (false for NaN). -/
def gtR : Fl → ℝ → Prop
  | nan, _ => False
  | inf, _ => True
  | ninf, _ => False
  | fin a, d => d < a

noncomputable instance (x : Fl) (d : ℝ) : Decidable (x.ltR d) :=
  match x with
  | .nan => isFalse (fun h => h)
  | .inf => isFalse (fun h => h)
  | .ninf => isTrue trivial
  | .fin a => inferInstanceAs (Decidable (a < d))

noncomputable instance (x : Fl) (d : ℝ) : Decidable (x.gtR d) :=
  match x with
  | .nan => isFalse (fun h => h)
  | .inf => isTrue trivial
  | .ninf => isFalse (fun h => h)
  | .fin a => inferInstanceAs (Decidable (d < a))

@[simp] theorem add_fin_fin (a b : ℝ) : (fin a).add (fin b) = fin (a + b) := rfl
@[simp] theorem add_inf_fin (a : ℝ) : inf.add (fin a) = inf := rfl
@[simp] theorem add_fin_inf (a : ℝ) : (fin a).add inf = inf := rfl
@[simp] theorem add_fin_nan (a : ℝ) : (fin a).add nan = nan := rfl
@[simp] theorem add_nan (x : Fl) : nan.add x = nan := by cases x <;> rfl
@[simp] theorem sub_fin_fin (a b : ℝ) : (fin a).sub (fin b) = fin (a - b) := by
  simp [sub, neg, add, sub_eq_add_neg]
@[simp] theorem sub_fin_nan (a : ℝ) : (fin a).sub nan = nan := rfl
@[simp] theorem mul_fin_fin (a b : ℝ) : (fin a).mul (fin b) = fin (a * b) := rfl
@[simp] theorem mul_fin_nan (a : ℝ) : (fin a).mul nan = nan := rfl
@[simp] theorem divNat_fin (a : ℝ) (n : ℕ) : (fin a).divNat n = fin (a / (n : ℝ)) := rfl
@[simp] theorem divNat_nan (n : ℕ) : nan.divNat n = nan := rfl
@[simp] theorem ltR_fin (a d : ℝ) : ltR (fin a) d ↔ a < d := Iff.rfl
@[simp] theorem ltR_nan (d : ℝ) : ¬ ltR nan d := fun h => h
@[simp] theorem gtR_fin (a d : ℝ) : gtR (fin a) d ↔ d < a := Iff.rfl
@[simp] theorem gtR_inf (d : ℝ) : gtR inf d := trivial

end Fl

/-! ## System model (`system_model.py`) -/

/-- `FogNode` dataclass. -/
structure FogNode where
  node_id : ℕ
  cpu_mips : ℝ
  memory_mb : ℝ
  bandwidth_in_mbps : ℝ
  bandwidth_out_mbps : ℝ
  failure_rate : ℝ
  idle_power_w : ℝ
  tx_power_w : ℝ := 1.8
  rx_power_w : ℝ := 1.2
  alpha : ℝ := 0.0001
  beta : ℝ := 0.0
  gamma : ℝ := 0.0

/-- `Task` dataclass. -/
structure Task where
  task_id : ℕ
  workload_mi : ℝ
  input_size_mb : ℝ
  output_size_mb : ℝ
  memory_requirement_mb : ℝ
  deadline_s : ℝ
  criticality : ℕ
  source_device_id : ℕ

/-- `CloudDataCenter` dataclass. -/
structure CloudDataCenter where
  center_id : ℕ
  cpu_mips : ℝ
  memory_mb : ℝ
  bandwidth_in_mbps : ℝ
  bandwidth_out_mbps : ℝ
  failure_rate : ℝ := 1e-7
  idle_power_w : ℝ := 0.0

/-- A host as returned by `FogCloudTopology.get_host`: either a fog node or
a cloud data center. -/
inductive Host where
  | fog (f : FogNode) : Host
  | cloud (c : CloudDataCenter) : Host

/-- `host.cpu_mips` (both variants carry the attribute). -/
def Host.cpu_mips : Host → ℝ
  | .fog f => f.cpu_mips
  | .cloud c => c.cpu_mips

/-- `host.memory_mb` (both variants carry the attribute). -/
def Host.memory_mb : Host → ℝ
  | .fog f => f.memory_mb
  | .cloud c => c.memory_mb

/-- `host.failure_rate` (both variants carry the attribute). -/
def Host.failure_rate : Host → ℝ
  | .fog f => f.failure_rate
  | .cloud c => c.failure_rate

/-- `host.node_id if hasattr(host, 'node_id') else host.center_id`
(dispatch used by `task_total_time`). -/
def Host.hostId : Host → ℕ
  | .fog f => f.node_id
  | .cloud c => c.center_id

/-- `FogCloudTopology`: the two id-indexed host dictionaries and the pairwise
latency/bandwidth dictionaries, modelled as partial maps. -/
structure FogCloudTopology where
  fog_nodes : ℕ → Option FogNode
  cloud_datacenters : ℕ → Option CloudDataCenter
  network_latency_ms : ℕ × ℕ → Option ℝ
  network_bandwidth_mbps : ℕ × ℕ → Option ℝ

namespace FogCloudTopology

/-- `get_latency_ms`: `(s,d)`, then the symmetric `(d,s)`, then 50 ms. -/
def get_latency_ms (t : FogCloudTopology) (source_id dest_id : ℕ) : ℝ :=
  match t.network_latency_ms (source_id, dest_id) with
  | some v => v
  | none => (t.network_latency_ms (dest_id, source_id)).getD 50.0

/-- `get_bandwidth_mbps`: `(s,d)`, then the symmetric `(d,s)`, then 100 Mbps. -/
def get_bandwidth_mbps (t : FogCloudTopology) (source_id dest_id : ℕ) : ℝ :=
  match t.network_bandwidth_mbps (source_id, dest_id) with
  | some v => v
  | none => (t.network_bandwidth_mbps (dest_id, source_id)).getD 100.0

/-- `get_host`: fog nodes first, then cloud data centers, else `None`. -/
def get_host (t : FogCloudTopology) (node_id : ℕ) : Option Host :=
  match t.fog_nodes node_id with
  | some f => some (Host.fog f)
  | none => (t.cloud_datacenters node_id).map Host.cloud

end FogCloudTopology

/-! ## Cost model (`ReliabilityModel`, `NetworkModel`) -/

/-- `ReliabilityModel.task_execution_time`: `workload_mi / cpu_mips` when the
rate is positive, `float('inf')` otherwise.  (The `frequency_ghz` parameter is
accepted but unused, exactly as in the source.) -/
noncomputable def task_execution_time (task : Task) (host : Host) (_frequency_ghz : ℝ) : Fl :=
  if 0 < host.cpu_mips then Fl.fin (task.workload_mi / host.cpu_mips) else Fl.inf

/-- `ReliabilityModel.transfer_time_s`: transmission term guarded by
`bandwidth > 0` (else `float('inf')`), plus the latency converted to seconds. -/
noncomputable def transfer_time_s (data_size_mb bandwidth_mbps latency_ms : ℝ) : Fl :=
  (if 0 < bandwidth_mbps then Fl.fin (data_size_mb * 8 / bandwidth_mbps) else Fl.inf).add
    (Fl.fin (latency_ms / 1000))

/-- `NetworkModel.total_transfer_time`: identical formula to
`transfer_time_s`. -/
noncomputable def total_transfer_time (data_size_mb bandwidth_mbps latency_ms : ℝ) : Fl :=
  (if 0 < bandwidth_mbps then Fl.fin (data_size_mb * 8 / bandwidth_mbps) else Fl.inf).add
    (Fl.fin (latency_ms / 1000))

/-- `ReliabilityModel.node_success_probability`:
`math.exp(-(failure_rate/3600) * t)`.  On an infinite execution time the
Python float semantics give `0.0` for a positive rate, `inf` for a negative
rate, and `nan` (`0 * inf`) for a zero rate. -/
noncomputable def node_success_probability (host : Host) (execution_time_s : Fl) : Fl :=
  match execution_time_s with
  | Fl.fin x => Fl.fin (Real.exp (-(host.failure_rate / 3600 * x)))
  | Fl.inf =>
      if 0 < host.failure_rate / 3600 then Fl.fin 0
      else if host.failure_rate / 3600 < 0 then Fl.inf
      else Fl.nan
  | Fl.ninf =>
      if 0 < host.failure_rate / 3600 then Fl.inf
      else if host.failure_rate / 3600 < 0 then Fl.fin 0
      else Fl.nan
  | Fl.nan => Fl.nan

/-- `ReliabilityModel.task_success_with_replication`:
`1 - prod (1 - p_i)`, `0.0` on the empty list. -/
noncomputable def task_success_with_replication (success_probs : List Fl) : Fl :=
  match success_probs with
  | [] => Fl.fin 0
  | _ =>
      let failure_prob := success_probs.foldl
        (fun fp p => fp.mul ((Fl.fin 1).sub p)) (Fl.fin 1)
      (Fl.fin 1).sub failure_prob

/-- `NetworkModel.task_total_time`: input transfer + execution + output
transfer, with host↔device latency/bandwidth resolved via the topology. -/
noncomputable def task_total_time (task : Task) (device_id : ℕ) (host : Host)
    (frequency_ghz : ℝ) (topology : FogCloudTopology) : Fl :=
  let host_id := host.hostId
  let t_trans_in := total_transfer_time task.input_size_mb
    (topology.get_bandwidth_mbps device_id host_id)
    (topology.get_latency_ms device_id host_id)
  let exec_time := task_execution_time task host frequency_ghz
  let t_trans_out := total_transfer_time task.output_size_mb
    (topology.get_bandwidth_mbps host_id device_id)
    (topology.get_latency_ms host_id device_id)
  (t_trans_in.add exec_time).add t_trans_out

/-! ## Objectives (`objectives.py`) -/

/-- `Schedule`: the assignment table `{task_id: {'nodes': [...], 'frequency': f}}`. -/
structure Schedule where
  num_tasks : ℕ
  num_hosts : ℕ
  assignments : ℕ → Option (List ℕ × ℝ)

/-- The four penalty coefficients (`ObjectiveFunction.penalties`). -/
structure PenaltyCoeffs where
  cpu : ℝ
  memory : ℝ
  deadline : ℝ
  reliability : ℝ

/-- One `load[node_id] += v` step on the insertion-ordered load dictionary. -/
def addLoad (m : List (ℕ × ℝ)) (k : ℕ) (v : ℝ) : List (ℕ × ℝ) :=
  if m.any (fun p => p.1 = k) then
    m.map (fun p => if p.1 = k then (p.1, p.2 + v) else p)
  else m ++ [(k, v)]

/-- The loop building the `cpu_load` dictionary of `penalty_function`, with
explicit accumulator: per node id, the summed `workload_mi` of every replica
assigned to it. -/
def cpu_load_from (schedule : Schedule) (tasks : List Task) (m : List (ℕ × ℝ)) :
    List (ℕ × ℝ) :=
  tasks.foldl (fun m task =>
    match schedule.assignments task.task_id with
    | none => m
    | some (node_ids, _) =>
        node_ids.foldl (fun m node_id => addLoad m node_id task.workload_mi) m) m

/-- The `cpu_load` dictionary of `penalty_function`. -/
def cpu_load (tasks : List Task) (schedule : Schedule) : List (ℕ × ℝ) :=
  cpu_load_from schedule tasks []

/-- The loop building the `mem_load` dictionary of `penalty_function`. -/
def mem_load_from (schedule : Schedule) (tasks : List Task) (m : List (ℕ × ℝ)) :
    List (ℕ × ℝ) :=
  tasks.foldl (fun m task =>
    match schedule.assignments task.task_id with
    | none => m
    | some (node_ids, _) =>
        node_ids.foldl (fun m node_id => addLoad m node_id task.memory_requirement_mb) m) m

/-- The `mem_load` dictionary of `penalty_function`. -/
def mem_load (tasks : List Task) (schedule : Schedule) : List (ℕ × ℝ) :=
  mem_load_from schedule tasks []

/-- The CPU accumulation loop of `penalty_function` over the load entries:
for every loaded node with a host, add `penalties['cpu'] * (utilization - 1)`
whenever `utilization > 1`. -/
noncomputable def cpu_penalty_from (topology : FogCloudTopology) (coeffs : PenaltyCoeffs)
    (loads : List (ℕ × ℝ)) (acc : ℝ) : ℝ :=
  loads.foldl (fun penalty p =>
    match topology.get_host p.1 with
    | some host =>
        let utilization := p.2 / host.cpu_mips
        if 1 < utilization then penalty + coeffs.cpu * (utilization - 1) else penalty
    | none => penalty) acc

/-- CPU term of `penalty_function`. -/
noncomputable def cpu_penalty (topology : FogCloudTopology) (tasks : List Task)
    (schedule : Schedule) (coeffs : PenaltyCoeffs) : ℝ :=
  cpu_penalty_from topology coeffs (cpu_load tasks schedule) 0

/-- The memory accumulation loop of `penalty_function`, same shape as the
CPU one. -/
noncomputable def memory_penalty_from (topology : FogCloudTopology) (coeffs : PenaltyCoeffs)
    (loads : List (ℕ × ℝ)) (acc : ℝ) : ℝ :=
  loads.foldl (fun penalty p =>
    match topology.get_host p.1 with
    | some host =>
        let utilization := p.2 / host.memory_mb
        if 1 < utilization then penalty + coeffs.memory * (utilization - 1) else penalty
    | none => penalty) acc

/-- Memory term of `penalty_function`. -/
noncomputable def memory_penalty (topology : FogCloudTopology) (tasks : List Task)
    (schedule : Schedule) (coeffs : PenaltyCoeffs) : ℝ :=
  memory_penalty_from topology coeffs (mem_load tasks schedule) 0

/-- Deadline term of `penalty_function`.  An unassigned task adds the fixed
coefficient.  For an assigned task the source takes
`node_id = node_ids[0] if node_ids else None` and then tests `if node_id:` -
Python truthiness - so an empty replica list, and a first replica with id `0`,
skip the check entirely; a first replica whose id has no host raises
`AttributeError` inside `task_total_time` (modelled as `none`). -/
noncomputable def deadline_penalty_from (topology : FogCloudTopology)
    (schedule : Schedule) (coeffs : PenaltyCoeffs) (tasks : List Task)
    (acc0 : Option ℝ) : Option ℝ :=
  tasks.foldl (fun acc task =>
    acc.bind (fun penalty =>
      match schedule.assignments task.task_id with
      | none => some (penalty + coeffs.deadline)
      | some (node_ids, frequency_ghz) =>
          match node_ids.head? with
          | none => some penalty
          | some node_id =>
              if node_id = 0 then some penalty
              else
                match topology.get_host node_id with
                | none => none
                | some host =>
                    if (task_total_time task task.source_device_id host frequency_ghz
                        topology).gtR task.deadline_s
                    then some (penalty + coeffs.deadline) else some penalty))
    acc0

/-- Deadline term of `penalty_function` (running sum starts at `0.0`). -/
noncomputable def deadline_penalty (topology : FogCloudTopology) (tasks : List Task)
    (schedule : Schedule) (coeffs : PenaltyCoeffs) : Option ℝ :=
  deadline_penalty_from topology schedule coeffs tasks (some 0)

/-- Reliability term of `penalty_function`, folded onto a running total `acc`:
critical tasks only; an unassigned critical task adds the fixed coefficient,
otherwise `penalties['reliability'] * (0.99 - success)` is added whenever the
replicated success probability is below the hard-coded `0.99`.  Replicas whose
host is missing are silently dropped from the probability list. -/
noncomputable def reliability_step (topology : FogCloudTopology) (schedule : Schedule)
    (coeffs : PenaltyCoeffs) (acc : Fl) (task : Task) : Fl :=
  if task.criticality = 0 then acc
  else
    match schedule.assignments task.task_id with
    | none => acc.add (Fl.fin coeffs.reliability)
    | some (node_ids, frequency_ghz) =>
        let success_probs := node_ids.filterMap (fun node_id =>
          (topology.get_host node_id).map (fun host =>
            node_success_probability host
              (task_execution_time task host frequency_ghz)))
        let task_success := task_success_with_replication success_probs
        if task_success.ltR 0.99 then
          acc.add ((Fl.fin coeffs.reliability).mul ((Fl.fin 0.99).sub task_success))
        else acc

/-- The loop over tasks accumulating the reliability term. -/
noncomputable def reliability_fold (topology : FogCloudTopology) (tasks : List Task)
    (schedule : Schedule) (coeffs : PenaltyCoeffs) (acc : Fl) : Fl :=
  tasks.foldl (reliability_step topology schedule coeffs) acc

/-- `ObjectiveFunction.penalty_function`: the running sum over the four
constraint groups, in source order; `none` models the `AttributeError`
reachable from the deadline group. -/
noncomputable def penalty_function (topology : FogCloudTopology) (tasks : List Task)
    (schedule : Schedule) (coeffs : PenaltyCoeffs) : Option Fl :=
  (deadline_penalty topology tasks schedule coeffs).map (fun dl =>
    reliability_fold topology tasks schedule coeffs
      (Fl.fin (cpu_penalty topology tasks schedule coeffs
        + memory_penalty topology tasks schedule coeffs + dl)))

/-- The summation loop of `ObjectiveFunction.system_reliability`, with
explicit accumulator: an unassigned task contributes `0.0`, a replica on a
missing host contributes probability `0.0`. -/
noncomputable def reliability_total_from (topology : FogCloudTopology)
    (schedule : Schedule) (tasks : List Task) (acc0 : Fl) : Fl :=
  tasks.foldl (fun acc task =>
    match schedule.assignments task.task_id with
    | none => acc.add (Fl.fin 0)
    | some (node_ids, frequency_ghz) =>
        let success_probs := node_ids.map (fun node_id =>
          match topology.get_host node_id with
          | none => Fl.fin 0
          | some host =>
              node_success_probability host
                (task_execution_time task host frequency_ghz))
        acc.add (task_success_with_replication success_probs)) acc0

/-- `ObjectiveFunction.system_reliability`: mean replicated success
probability over the task set (`0.0` on an empty task set). -/
noncomputable def system_reliability (topology : FogCloudTopology) (tasks : List Task)
    (schedule : Schedule) : Fl :=
  match tasks with
  | [] => Fl.fin 0
  | _ => (reliability_total_from topology schedule tasks (Fl.fin 0)).divNat tasks.length

/-- The summation in the specification's wording of the CPU penalty, with
explicit accumulator: `max(0, load/capacity - 1)` over the loaded hosts. -/
noncomputable def spec_cpu_sum_from (topology : FogCloudTopology)
    (loads : List (ℕ × ℝ)) (acc : ℝ) : ℝ :=
  loads.foldl (fun s p =>
    match topology.get_host p.1 with
    | some host => s + max 0 (p.2 / host.cpu_mips - 1)
    | none => s) acc

/-- The CPU penalty exactly as the specification words it:
`penaltyCpu` times the sum, over loaded hosts, of `max(0, load/capacity - 1)`.
Stated for comparison with `cpu_penalty` (refinement claim C5). -/
noncomputable def spec_cpu_penalty (topology : FogCloudTopology) (tasks : List Task)
    (schedule : Schedule) (coeffs : PenaltyCoeffs) : ℝ :=
  coeffs.cpu * spec_cpu_sum_from topology (cpu_load tasks schedule) 0

/-! ## MD-GWO (`mdgwo.py`) -/

/-- `Wolf`: continuous position vector plus fitness and personal-best memory. -/
structure Wolf where
  position : List ℝ
  num_tasks : ℕ
  num_hosts : ℕ
  fitness : WithTop ℝ
  pbest : List ℝ
  pbest_fitness : WithTop ℝ

instance : Inhabited Wolf := ⟨⟨[], 0, 0, ⊤, [], ⊤⟩⟩

/-- `Wolf.__init__`: fitness starts at `float('inf')`, the personal best is a
copy of the initial position with infinite fitness. -/
def mkWolf (position : List ℝ) (num_tasks num_hosts : ℕ) : Wolf :=
  { position := position, num_tasks := num_tasks, num_hosts := num_hosts,
    fitness := ⊤, pbest := position, pbest_fitness := ⊤ }

/-- `int(np.round(x))`: round half to even (the result is integral, so the
truncation by `int(...)` is exact). -/
noncomputable def roundEven (x : ℝ) : ℤ :=
  if x - ⌊x⌋ < 1 / 2 then ⌊x⌋
  else if 1 / 2 < x - ⌊x⌋ then ⌊x⌋ + 1
  else if Even ⌊x⌋ then ⌊x⌋ else ⌊x⌋ + 1

namespace Wolf

/-- `Wolf.decode_position`: three coordinates per task; host coordinate
rounded then wrapped by `% num_hosts`, replication rounded then clamped to
`[1, 3]`, frequency clamped to `[0.4, 2.0]`; the replica list is the primary
host followed by `(primary + r) % num_hosts` for `r = 1 .. replication-1`. -/
noncomputable def decode_position (w : Wolf) : List (ℕ × (List ℤ × ℝ)) :=
  (List.range w.num_tasks).map (fun j =>
    let node_cont := w.position.getD (3 * j) 0
    let node_id := roundEven node_cont % (w.num_hosts : ℤ)
    let repl_cont := w.position.getD (3 * j + 1) 1
    let replication := max 1 (min 3 (roundEven repl_cont))
    let freq_cont := w.position.getD (3 * j + 2) 2
    let frequency_ghz := min (max freq_cont 0.4) 2.0
    let node_ids := node_id ::
      (List.range (replication.toNat - 1)).map
        (fun (r : ℕ) => (node_id + ((r : ℤ) + 1)) % (w.num_hosts : ℤ))
    (j, (node_ids, frequency_ghz)))

/-- The method call as a state transformer: `decode_position` only reads the
wolf, so the returned state is the unchanged receiver. -/
noncomputable def decode_position_run (w : Wolf) : List (ℕ × (List ℤ × ℝ)) × Wolf :=
  (w.decode_position, w)

/-- `Wolf.update_pbest`: strict improvement only. -/
noncomputable def update_pbest (w : Wolf) (new_fitness : WithTop ℝ) : Wolf :=
  if new_fitness < w.pbest_fitness then
    { w with pbest := w.position, pbest_fitness := new_fitness }
  else w

end Wolf

/-- The mutable fields of an `MDGWO` object. -/
structure MDGWOState where
  num_tasks : ℕ
  num_hosts : ℕ
  population_size : ℤ
  max_iterations : ℤ
  memory_decay : String
  wolves : List Wolf
  alpha : Option ℕ
  beta : Option ℕ
  delta : Option ℕ
  iteration : ℕ
  best_fitness_history : List (WithTop ℝ)

/-- `MDGWO.__init__` as a fallible constructor: the source performs no
validation whatsoever, so every input is accepted (`Except.ok`). -/
def MDGWOInit (num_tasks num_hosts : ℕ) (population_size max_iterations : ℤ)
    (memory_decay : String) : Except String MDGWOState :=
  Except.ok
    { num_tasks := num_tasks, num_hosts := num_hosts,
      population_size := population_size, max_iterations := max_iterations,
      memory_decay := memory_decay, wolves := [],
      alpha := none, beta := none, delta := none,
      iteration := 0, best_fitness_history := [] }

/-- `MDGWO._memory_coefficient`: linear `1 - t / max(1, I)` by default,
`exp(-(2/I) * t)` for the `'exponential'` scheme. -/
noncomputable def memory_coefficient (memory_decay : String) (max_iterations : ℤ)
    (iteration : ℕ) : ℝ :=
  if memory_decay = "linear" then
    1 - (iteration : ℝ) / ((max 1 max_iterations : ℤ) : ℝ)
  else if memory_decay = "exponential" then
    Real.exp (-(2 / (max_iterations : ℝ)) * (iteration : ℝ))
  else
    1 - (iteration : ℝ) / ((max 1 max_iterations : ℤ) : ℝ)

/-- The position assignment of `MDGWO.update_wolf`:
`(X_a + X_b + X_d)/3 + eta * (pbest - X)`, then per-coordinate clipping
(host `[0, num_hosts-1]`, replication `[1, 3]`, frequency `[0.4, 2.0]`).
Only the `position` field of the record is replaced. -/
noncomputable def update_wolf (eta : ℝ) (num_hosts : ℕ)
    (alpha_pos beta_pos delta_pos : List ℝ) (w : Wolf) : Wolf :=
  let social_position := ((alpha_pos.zipWith (· + ·) beta_pos).zipWith (· + ·)
    delta_pos).map (· / 3)
  let memory_component := (w.pbest.zipWith (· - ·) w.position).map (eta * ·)
  let new_position := social_position.zipWith (· + ·) memory_component
  let clipped := new_position.mapIdx (fun i v =>
    if i % 3 = 0 then min (max v 0) ((num_hosts : ℝ) - 1)
    else if i % 3 = 1 then min (max v 1) 3
    else min (max v 0.4) 2.0)
  { w with position := clipped }

/-- `MDGWO.update_wolf` acting on the optimizer state, with the target wolf
named by its index `k` (Python object identity).  Returns the state unchanged
when any leader reference is `None`, exactly like the source's early return. -/
noncomputable def updateWolfAt (st : MDGWOState) (k : ℕ) (iteration : ℕ) : MDGWOState :=
  match st.alpha, st.beta, st.delta with
  | some ia, some ib, some idl =>
      let eta := memory_coefficient st.memory_decay st.max_iterations iteration
      let w := st.wolves.getD k default
      let w1 := update_wolf eta st.num_hosts
        (st.wolves.getD ia default).position
        (st.wolves.getD ib default).position
        (st.wolves.getD idl default).position w
      { st with wolves := st.wolves.set k w1 }
  | _, _, _ => st

/-- The evaluation pass of `MDGWO.optimize`:
`wolf.fitness = f(wolf); wolf.update_pbest(wolf.fitness)` for every wolf.
The fitness function is a pure function of the position vector (claim C3's
hypothesis). -/
noncomputable def evaluate_wolves (f : List ℝ → WithTop ℝ) (ws : List Wolf) : List Wolf :=
  ws.map (fun w => ({ w with fitness := f w.position }).update_pbest (f w.position))

/-- The stable-sort key order used by `_update_leaders`: Python's `sorted` is
stable, so sorting wolves by fitness equals sorting their indices by the
lexicographic order (fitness, original index). -/
def leader_order (ws : List Wolf) (i j : ℕ) : Prop :=
  (ws.getD i default).fitness < (ws.getD j default).fitness ∨
    ((ws.getD i default).fitness = (ws.getD j default).fitness ∧ i ≤ j)

noncomputable instance (ws : List Wolf) : DecidableRel (leader_order ws) := fun _ _ =>
  inferInstanceAs (Decidable (_ ∨ _))

/-- `MDGWO._update_leaders` on indices: the best three wolves of the stable
sort by fitness, repeating earlier picks when fewer than three wolves exist;
`none` models the `IndexError` on an empty population. -/
noncomputable def update_leaders_idx (ws : List Wolf) : Option (ℕ × ℕ × ℕ) :=
  match List.insertionSort (leader_order ws) (List.range ws.length) with
  | [] => none
  | [a] => some (a, a, a)
  | [a, b] => some (a, b, a)
  | a :: b :: c :: _ => some (a, b, c)

/-- One generation of `MDGWO.optimize`: evaluate every wolf, update leaders,
record the α fitness, then move every non-leader wolf. -/
noncomputable def gen_step (f : List ℝ → WithTop ℝ) (st : MDGWOState) (t : ℕ) :
    Option MDGWOState :=
  let ws := evaluate_wolves f st.wolves
  match update_leaders_idx ws with
  | none => none
  | some (ia, ib, idl) =>
      let best_fitness := (ws.getD ia default).fitness
      let eta := memory_coefficient st.memory_decay st.max_iterations t
      let aP := (ws.getD ia default).position
      let bP := (ws.getD ib default).position
      let dP := (ws.getD idl default).position
      some { st with
        wolves := ws.mapIdx (fun i w =>
          if i = ia ∨ i = ib ∨ i = idl then w
          else update_wolf eta st.num_hosts aP bP dP w),
        alpha := some ia, beta := some ib, delta := some idl,
        best_fitness_history := st.best_fitness_history ++ [best_fitness],
        iteration := t }

/-- The iteration loop of `MDGWO.optimize` (`n` generations remaining,
current generation index `t`). -/
noncomputable def optimize_loop (f : List ℝ → WithTop ℝ) :
    ℕ → ℕ → MDGWOState → Option MDGWOState
  | _, 0, st => some st
  | t, n + 1, st => (gen_step f st t).bind (optimize_loop f (t + 1) n)

/-- `MDGWO.optimize`: reset the history, then run `max_iterations`
generations. -/
noncomputable def optimize (f : List ℝ → WithTop ℝ) (st : MDGWOState) :
    Option MDGWOState :=
  optimize_loop f 0 st.max_iterations.toNat { st with best_fitness_history := [] }

/-- The schedule entry `decode_position` builds for task `j` (the body of its
loop, with the source's let-bindings inlined). -/
noncomputable def decodeEntry (w : Wolf) (j : ℕ) : List ℤ × ℝ :=
  (roundEven (w.position.getD (3 * j) 0) % (w.num_hosts : ℤ) ::
      (List.range ((max 1 (min 3 (roundEven (w.position.getD (3 * j + 1) 1)))).toNat - 1)).map
        (fun (r : ℕ) =>
          (roundEven (w.position.getD (3 * j) 0) % (w.num_hosts : ℤ) + ((r : ℤ) + 1)) %
            (w.num_hosts : ℤ)),
    min (max (w.position.getD (3 * j + 2) 2) 0.4) 2.0)

/-! ## Concrete instances used by counterexamples and witnesses -/

/-- A fog node with id 0, unit capacities and zero failure rate. -/
def fogB : FogNode :=
  { node_id := 0, cpu_mips := 1, memory_mb := 1, bandwidth_in_mbps := 1,
    bandwidth_out_mbps := 1, failure_rate := 0, idle_power_w := 0 }

/-- A topology containing only `fogB` (id 0), with empty network tables. -/
def topoB : FogCloudTopology :=
  { fog_nodes := fun n => if n = 0 then some fogB else none,
    cloud_datacenters := fun _ => none,
    network_latency_ms := fun _ => none,
    network_bandwidth_mbps := fun _ => none }

/-- A task that needs 10 s of compute on `fogB` but has a 1 s deadline. -/
def taskB : Task :=
  { task_id := 0, workload_mi := 10, input_size_mb := 0, output_size_mb := 0,
    memory_requirement_mb := 0, deadline_s := 1, criticality := 0,
    source_device_id := 5 }

/-- The schedule assigning `taskB` to host 0 at 2.0 GHz. -/
def schedB : Schedule :=
  { num_tasks := 1, num_hosts := 1,
    assignments := fun tid => if tid = 0 then some ([0], 2) else none }

/-- The default penalty coefficients of `ObjectiveFunction`. -/
def coeffsB : PenaltyCoeffs :=
  { cpu := 10000, memory := 10000, deadline := 100000, reliability := 100000 }

/-- A fog node with zero processing rate and zero failure rate (id 0). -/
def fogN : FogNode :=
  { node_id := 0, cpu_mips := 0, memory_mb := 1, bandwidth_in_mbps := 1,
    bandwidth_out_mbps := 1, failure_rate := 0, idle_power_w := 0 }

/-- A topology containing only `fogN`. -/
def topoN : FogCloudTopology :=
  { fog_nodes := fun n => if n = 0 then some fogN else none,
    cloud_datacenters := fun _ => none,
    network_latency_ms := fun _ => none,
    network_bandwidth_mbps := fun _ => none }

/-- A unit-workload task. -/
def taskN : Task :=
  { task_id := 0, workload_mi := 1, input_size_mb := 0, output_size_mb := 0,
    memory_requirement_mb := 0, deadline_s := 10, criticality := 0,
    source_device_id := 5 }

/-- The schedule assigning `taskN` to host 0 at 2.0 GHz. -/
def schedN : Schedule :=
  { num_tasks := 1, num_hosts := 1,
    assignments := fun tid => if tid = 0 then some ([0], 2) else none }

/-- A healthy fog node: unit rate and capacity, unit failure rate (id 0). -/
def fogG : FogNode :=
  { node_id := 0, cpu_mips := 1, memory_mb := 1, bandwidth_in_mbps := 1,
    bandwidth_out_mbps := 1, failure_rate := 1, idle_power_w := 0 }

/-- A topology containing only `fogG`. -/
def topoG : FogCloudTopology :=
  { fog_nodes := fun n => if n = 0 then some fogG else none,
    cloud_datacenters := fun _ => none,
    network_latency_ms := fun _ => none,
    network_bandwidth_mbps := fun _ => none }

/-- A unit-workload task used with `topoG`. -/
def taskG : Task :=
  { task_id := 0, workload_mi := 1, input_size_mb := 0, output_size_mb := 0,
    memory_requirement_mb := 0, deadline_s := 10, criticality := 0,
    source_device_id := 5 }

/-- The schedule assigning `taskG` to host 0 at 2.0 GHz. -/
def schedG : Schedule :=
  { num_tasks := 1, num_hosts := 1,
    assignments := fun tid => if tid = 0 then some ([0], 2) else none }

/-- A fog node with id 1 for the CPU-overload scenario. -/
def fogE : FogNode :=
  { node_id := 1, cpu_mips := 1, memory_mb := 1, bandwidth_in_mbps := 1,
    bandwidth_out_mbps := 1, failure_rate := 1, idle_power_w := 0 }

/-- A topology containing only `fogE` (id 1). -/
def topoE : FogCloudTopology :=
  { fog_nodes := fun n => if n = 1 then some fogE else none,
    cloud_datacenters := fun _ => none,
    network_latency_ms := fun _ => none,
    network_bandwidth_mbps := fun _ => none }

/-- A task whose workload 2 exceeds `fogE`'s unit capacity on its own. -/
def taskE : Task :=
  { task_id := 0, workload_mi := 2, input_size_mb := 0, output_size_mb := 0,
    memory_requirement_mb := 0, deadline_s := 1000, criticality := 0,
    source_device_id := 5 }

/-- The schedule assigning `taskE` to host 1 at 2.0 GHz. -/
def schedE : Schedule :=
  { num_tasks := 1, num_hosts := 2,
    assignments := fun tid => if tid = 0 then some ([1], 2) else none }

/-- Penalty coefficients with positive CPU coefficient and zero others. -/
def coeffsE : PenaltyCoeffs :=
  { cpu := 1, memory := 0, deadline := 0, reliability := 0 }

/-- A wolf over 1 task and 2 hosts with a concrete 3-coordinate position. -/
def wolfA : Wolf :=
  { position := [0.6, 2.5, 3.0], num_tasks := 1, num_hosts := 2,
    fitness := ⊤, pbest := [0.6, 2.5, 3.0], pbest_fitness := ⊤ }

/-- `wolfA` with a different fitness but the same position. -/
def wolfB : Wolf := { wolfA with fitness := (5 : WithTop ℝ) }

/-- A two-wolf optimizer state whose three leaders are all wolf 0. -/
def stateC : MDGWOState :=
  { num_tasks := 1, num_hosts := 2, population_size := 2, max_iterations := 3,
    memory_decay := "linear", wolves := [wolfA, wolfB],
    alpha := some 0, beta := some 0, delta := some 0, iteration := 0,
    best_fitness_history := [] }

/-- A one-wolf optimizer state with a 2-iteration budget. -/
def stateD : MDGWOState :=
  { num_tasks := 1, num_hosts := 2, population_size := 1, max_iterations := 2,
    memory_decay := "linear", wolves := [wolfA],
    alpha := none, beta := none, delta := none, iteration := 0,
    best_fitness_history := [] }

/-! ## Claim theorems -/

/-- Association-list lookup over an index-keyed mapped range. -/
theorem lookup_map_range' {β : Type} (g : ℕ → β) :
    ∀ (n s j : ℕ), s ≤ j → j < s + n →
      ((List.range' s n).map (fun i => (i, g i))).lookup j = some (g j) := by
  intro n
  induction n with
  | zero => intro s j h1 h2; omega
  | succ n ih =>
      intro s j h1 h2
      rw [List.range'_succ, List.map_cons]
      by_cases hjs : j = s
      · subst hjs
        simp [List.lookup]
      · have hbeq : (j == s) = false := beq_false_of_ne hjs
        simp only [List.lookup, hbeq]
        exact ih (s + 1) j (by omega) (by omega)

/-- Characterization of the decoded entry for task `j`. -/
theorem decode_position_lookup (w : Wolf) (j : ℕ) (hj : j < w.num_tasks) :
    w.decode_position.lookup j = some (decodeEntry w j) := by
  unfold Wolf.decode_position
  rw [List.range_eq_range']
  exact lookup_map_range' (fun i => decodeEntry w i) w.num_tasks 0 j (Nat.zero_le j) (by omega)

/-- Claim C8: with a positive host count and a position vector spanning all
tasks, every task index decodes to a replica list of length
`clamp(round(p[3j+1]), 1, 3)` (hence between 1 and 3) whose host ids all lie
in `[0, num_hosts)`, with frequency `clamp(p[3j+2], 0.4, 2.0)` in
`[0.4, 2.0]`. -/
theorem C8_decode_invariants (w : Wolf) (hH : 0 < w.num_hosts)
    (hL : 3 * w.num_tasks ≤ w.position.length) :
    ∀ j, j < w.num_tasks →
      ∃ node_ids freq,
        w.decode_position.lookup j = some (node_ids, freq) ∧
        node_ids.length =
          (max 1 (min 3 (roundEven (w.position.getD (3 * j + 1) 1)))).toNat ∧
        1 ≤ node_ids.length ∧ node_ids.length ≤ 3 ∧
        (∀ h ∈ node_ids, 0 ≤ h ∧ h < (w.num_hosts : ℤ)) ∧
        freq = min (max (w.position.getD (3 * j + 2) 2) 0.4) 2.0 ∧
        0.4 ≤ freq ∧ freq ≤ 2.0 := by
  intro j hj
  have hz : (w.num_hosts : ℤ) ≠ 0 := by exact_mod_cast Nat.pos_iff_ne_zero.mp hH
  have hzpos : (0 : ℤ) < (w.num_hosts : ℤ) := by exact_mod_cast hH
  have h1 : (1 : ℤ) ≤ max 1 (min 3 (roundEven (w.position.getD (3 * j + 1) 1))) :=
    le_max_left _ _
  have h3 : max 1 (min 3 (roundEven (w.position.getD (3 * j + 1) 1))) ≤ 3 :=
    max_le (by norm_num) (min_le_left _ _)
  have hlen : (decodeEntry w j).1.length =
      (max 1 (min 3 (roundEven (w.position.getD (3 * j + 1) 1)))).toNat := by
    show (_ :: List.map _ _).length = _
    rw [List.length_cons, List.length_map, List.length_range]
    omega
  refine ⟨(decodeEntry w j).1, (decodeEntry w j).2, decode_position_lookup w j hj,
    hlen, ?_, ?_, ?_, rfl, ?_, ?_⟩
  · rw [hlen]; omega
  · rw [hlen]; omega
  · intro h hmem
    simp only [decodeEntry] at hmem
    rcases List.mem_cons.mp hmem with hhd | htl
    · subst hhd
      exact ⟨Int.emod_nonneg _ hz, Int.emod_lt_of_pos _ hzpos⟩
    · rcases List.mem_map.mp htl with ⟨r, _, hr⟩
      subst hr
      exact ⟨Int.emod_nonneg _ hz, Int.emod_lt_of_pos _ hzpos⟩
  · exact le_min (le_max_right _ _) (by norm_num)
  · exact min_le_right _ _

/-- Claim C8, witness at the wolf `wolfA` (1 task, 2 hosts, position
`[0.6, 2.5, 3.0]`). -/
theorem C8_decode_invariants_witness :
    ∃ node_ids freq,
      wolfA.decode_position.lookup 0 = some (node_ids, freq) ∧
      node_ids.length =
        (max 1 (min 3 (roundEven (wolfA.position.getD (3 * 0 + 1) 1)))).toNat ∧
      1 ≤ node_ids.length ∧ node_ids.length ≤ 3 ∧
      (∀ h ∈ node_ids, 0 ≤ h ∧ h < (wolfA.num_hosts : ℤ)) ∧
      freq = min (max (wolfA.position.getD (3 * 0 + 2) 2) 0.4) 2.0 ∧
      0.4 ≤ freq ∧ freq ≤ 2.0 :=
  C8_decode_invariants wolfA (by decide) (by decide) 0 (by decide)

/-- Claim C1, failing input: `taskB` is assigned (first replica host id 0)
and its total task time from that replica (about 10.1 s) exceeds its 1 s
deadline, yet the deadline component of `penalty_function` adds nothing -
the source's `if node_id:` is false for host id `0` (Python truthiness), so
tasks whose first replica is host 0 are never deadline-checked.  The claim
(and the function's own docstring formula) require one fixed coefficient
here. -/
theorem C1_deadline_skips_host_zero :
    deadline_penalty topoB [taskB] schedB coeffsB = some 0 ∧
    (task_total_time taskB taskB.source_device_id (Host.fog fogB) 2 topoB).gtR
      taskB.deadline_s ∧
    schedB.assignments taskB.task_id = some ([0], 2) ∧
    FogCloudTopology.get_host topoB 0 = some (Host.fog fogB) ∧
    coeffsB.deadline ≠ 0 := by
  refine ⟨?_, ?_, rfl, rfl, by norm_num [coeffsB]⟩
  · simp [deadline_penalty, deadline_penalty_from, schedB, taskB]
  · simp only [task_total_time, total_transfer_time, task_execution_time,
      FogCloudTopology.get_bandwidth_mbps, FogCloudTopology.get_latency_ms,
      topoB, taskB, fogB, Host.hostId, Host.cpu_mips]
    norm_num

/-- A replica's success probability is a finite value in `[0, 1]` provided
the workload is nonnegative and the host has a positive failure rate or a
positive processing rate (the excluded combination is the `exp(0 * inf)`
NaN). -/
theorem node_success_probability_unit (host : Host) (task : Task) (fr : ℝ)
    (hw : 0 ≤ task.workload_mi) (h0 : 0 ≤ host.failure_rate)
    (h1 : 0 < host.failure_rate ∨ 0 < host.cpu_mips) :
    ∃ v, node_success_probability host (task_execution_time task host fr) = Fl.fin v ∧
      0 ≤ v ∧ v ≤ 1 := by
  by_cases hcpu : 0 < host.cpu_mips
  · rw [task_execution_time, if_pos hcpu]
    refine ⟨Real.exp (-(host.failure_rate / 3600 * (task.workload_mi / host.cpu_mips))),
      rfl, (Real.exp_pos _).le, ?_⟩
    have harg : 0 ≤ host.failure_rate / 3600 * (task.workload_mi / host.cpu_mips) :=
      mul_nonneg (div_nonneg h0 (by norm_num)) (div_nonneg hw hcpu.le)
    exact Real.exp_le_one_iff.mpr (neg_nonpos.mpr harg)
  · rw [task_execution_time, if_neg hcpu]
    have hfr : 0 < host.failure_rate := h1.resolve_right hcpu
    refine ⟨0, ?_, le_refl 0, zero_le_one⟩
    show node_success_probability host Fl.inf = Fl.fin 0
    unfold node_success_probability
    rw [if_pos (div_pos hfr (by norm_num))]

/-- The running replica-failure product stays a finite value in `[0, 1]`
when every probability is. -/
theorem failure_fold_unit :
    ∀ (ps : List Fl), (∀ p ∈ ps, ∃ v, p = Fl.fin v ∧ 0 ≤ v ∧ v ≤ 1) →
      ∀ a : ℝ, 0 ≤ a → a ≤ 1 →
        ∃ u, ps.foldl (fun fp p => fp.mul ((Fl.fin 1).sub p)) (Fl.fin a) = Fl.fin u ∧
          0 ≤ u ∧ u ≤ 1 := by
  intro ps
  induction ps with
  | nil => exact fun _ a ha h1 => ⟨a, rfl, ha, h1⟩
  | cons p ps ih =>
      intro hp a ha h1
      obtain ⟨v, hv, hv0, hv1⟩ := hp p (List.mem_cons_self p ps)
      rw [List.foldl_cons, hv, Fl.sub_fin_fin, Fl.mul_fin_fin]
      exact ih (fun q hq => hp q (List.mem_cons_of_mem p hq)) (a * (1 - v))
        (mul_nonneg ha (by linarith)) (by nlinarith)

/-- `task_success_with_replication` of finite probabilities in `[0, 1]` is a
finite value in `[0, 1]`. -/
theorem task_success_with_replication_unit (ps : List Fl)
    (hp : ∀ p ∈ ps, ∃ v, p = Fl.fin v ∧ 0 ≤ v ∧ v ≤ 1) :
    ∃ s, task_success_with_replication ps = Fl.fin s ∧ 0 ≤ s ∧ s ≤ 1 := by
  match ps with
  | [] => exact ⟨0, rfl, le_refl 0, zero_le_one⟩
  | p :: ps =>
      obtain ⟨u, hu, hu0, hu1⟩ :=
        failure_fold_unit (p :: ps) hp 1 zero_le_one le_rfl
      refine ⟨1 - u, ?_, by linarith, by linarith⟩
      show (Fl.fin 1).sub ((p :: ps).foldl (fun fp q => fp.mul ((Fl.fin 1).sub q)) (Fl.fin 1)) =
        Fl.fin (1 - u)
      rw [hu, Fl.sub_fin_fin]

/-- The reliability summation adds, per task, a finite contribution in
`[0, 1]` under the amended C4 hypotheses. -/
theorem reliability_total_from_bounds (topology : FogCloudTopology) (schedule : Schedule) :
    ∀ (tasks : List Task),
      (∀ t ∈ tasks, 0 ≤ t.workload_mi) →
      (∀ nid h, topology.get_host nid = some h →
        0 ≤ h.failure_rate ∧ (0 < h.failure_rate ∨ 0 < h.cpu_mips)) →
      ∀ a : ℝ, 0 ≤ a →
        ∃ S, reliability_total_from topology schedule tasks (Fl.fin a) = Fl.fin S ∧
          a ≤ S ∧ S ≤ a + tasks.length := by
  intro tasks
  induction tasks with
  | nil => exact fun _ _ a ha => ⟨a, rfl, le_rfl, by simp⟩
  | cons task tasks ih =>
      intro hw hfr a ha
      have hstep : ∃ c : ℝ, 0 ≤ c ∧ c ≤ 1 ∧
          reliability_total_from topology schedule (task :: tasks) (Fl.fin a) =
            reliability_total_from topology schedule tasks (Fl.fin (a + c)) := by
        rw [reliability_total_from, List.foldl_cons]
        match hassign : schedule.assignments task.task_id with
        | none =>
            exact ⟨0, le_rfl, zero_le_one, rfl⟩
        | some (node_ids, frequency_ghz) =>
            have hprobs : ∀ p ∈ node_ids.map (fun node_id =>
                match topology.get_host node_id with
                | none => Fl.fin 0
                | some host =>
                    node_success_probability host
                      (task_execution_time task host frequency_ghz)),
                ∃ v, p = Fl.fin v ∧ 0 ≤ v ∧ v ≤ 1 := by
              intro p hpmem
              rcases List.mem_map.mp hpmem with ⟨nid, _, hnid⟩
              subst hnid
              match hg : topology.get_host nid with
              | none => exact ⟨0, rfl, le_rfl, zero_le_one⟩
              | some host =>
                  obtain ⟨hh0, hh1⟩ := hfr nid host hg
                  exact node_success_probability_unit host task frequency_ghz
                    (hw task (List.mem_cons_self task tasks)) hh0 hh1
            obtain ⟨s, hs, hs0, hs1⟩ :=
              task_success_with_replication_unit _ hprobs
            refine ⟨s, hs0, hs1, ?_⟩
            show List.foldl _ ((Fl.fin a).add (task_success_with_replication _)) tasks = _
            rw [hs, Fl.add_fin_fin]
            rfl
      obtain ⟨c, hc0, hc1, hc⟩ := hstep
      obtain ⟨S, hS, hSl, hSu⟩ := ih (fun t ht => hw t (List.mem_cons_of_mem task ht))
        hfr (a + c) (by linarith)
      refine ⟨S, by rw [hc]; exact hS, by linarith, ?_⟩
      have : (List.length (task :: tasks) : ℝ) = (tasks.length : ℝ) + 1 := by
        push_cast [List.length_cons]; ring
      rw [this]
      linarith

/-- Claim C4, counterexample: with every failure rate nonnegative (here `0`)
and a nonempty task set of nonnegative workloads, `system_reliability` is
NaN, not a value in `[0, 1]`: the host has `cpu_mips = 0`, so the execution
time is `float('inf')` and `exp(-(0/3600)*inf)` is `nan` in Python floats. -/
theorem C4_counterexample :
    (∀ nid h, topoN.get_host nid = some h → 0 ≤ h.failure_rate) ∧
    (∀ t ∈ [taskN], 0 ≤ t.workload_mi) ∧
    ([taskN] ≠ []) ∧
    system_reliability topoN [taskN] schedN = Fl.nan ∧
    ¬ ∃ x : ℝ, system_reliability topoN [taskN] schedN = Fl.fin x ∧ 0 ≤ x ∧ x ≤ 1 := by
  have hnan : system_reliability topoN [taskN] schedN = Fl.nan := by
    show (reliability_total_from topoN schedN [taskN] (Fl.fin 0)).divNat 1 = Fl.nan
    rw [reliability_total_from, List.foldl_cons]
    norm_num [schedN, taskN, topoN, FogCloudTopology.get_host, fogN,
      node_success_probability, task_execution_time, task_success_with_replication,
      Host.cpu_mips, Host.failure_rate]
  refine ⟨?_, ?_, by simp, hnan, ?_⟩
  · intro nid h hh
    by_cases h0 : nid = 0
    · subst h0
      simp only [topoN, FogCloudTopology.get_host] at hh
      norm_num at hh
      rw [← hh]
      norm_num [Host.failure_rate, fogN]
    · simp [topoN, FogCloudTopology.get_host, h0] at hh
  · intro t ht
    rw [List.mem_singleton] at ht
    subst ht
    norm_num [taskN]
  · rintro ⟨x, hx, -, -⟩
    rw [hnan] at hx
    exact Fl.noConfusion hx

/-- Claim C4, amended: if additionally every host has a positive failure
rate or a positive processing rate (ruling out the `exp(0 * inf)` NaN), and
all workloads are nonnegative, `system_reliability` of a nonempty task set is
a finite value in `[0, 1]`. -/
theorem C4_system_reliability_in_unit_interval (topology : FogCloudTopology)
    (tasks : List Task) (schedule : Schedule)
    (hne : tasks ≠ [])
    (hw : ∀ t ∈ tasks, 0 ≤ t.workload_mi)
    (hfr : ∀ nid h, topology.get_host nid = some h →
      0 ≤ h.failure_rate ∧ (0 < h.failure_rate ∨ 0 < h.cpu_mips)) :
    ∃ x : ℝ, system_reliability topology tasks schedule = Fl.fin x ∧ 0 ≤ x ∧ x ≤ 1 := by
  match tasks, hne with
  | task :: tasks, _ =>
      obtain ⟨S, hS, hS0, hSle⟩ :=
        reliability_total_from_bounds topology schedule (task :: tasks) hw hfr 0 le_rfl
      have hlen : (0 : ℝ) < ((task :: tasks).length : ℝ) := by
        rw [List.length_cons]; positivity
      refine ⟨S / ((task :: tasks).length : ℝ), ?_, ?_, ?_⟩
      · show (reliability_total_from topology schedule (task :: tasks) (Fl.fin 0)).divNat
          (task :: tasks).length = _
        rw [hS, Fl.divNat_fin]
      · exact div_nonneg hS0 hlen.le
      · rw [div_le_one hlen]
        simpa using hSle

/-- Claim C4, amended, witness at a concrete healthy topology. -/
theorem C4_system_reliability_in_unit_interval_witness :
    ∃ x : ℝ, system_reliability topoG [taskG] schedG = Fl.fin x ∧ 0 ≤ x ∧ x ≤ 1 :=
  C4_system_reliability_in_unit_interval topoG [taskG] schedG
    (List.cons_ne_nil taskG [])
    (by
      intro t ht
      rw [List.mem_singleton] at ht
      subst ht
      exact zero_le_one)
    (by
      intro nid h hh
      by_cases h0 : nid = 0
      · subst h0
        simp only [topoG, FogCloudTopology.get_host] at hh
        norm_num at hh
        rw [← hh]
        refine ⟨zero_le_one, Or.inl zero_lt_one⟩
      · simp [topoG, FogCloudTopology.get_host, h0] at hh)

/-- The spec-worded CPU sum shifts over its accumulator. -/
theorem spec_cpu_sum_from_shift (topology : FogCloudTopology) :
    ∀ (loads : List (ℕ × ℝ)) (acc : ℝ),
      spec_cpu_sum_from topology loads acc = acc + spec_cpu_sum_from topology loads 0 := by
  intro loads
  induction loads with
  | nil => intro acc; simp [spec_cpu_sum_from]
  | cons p l ih =>
      intro acc
      have hcons : ∀ a : ℝ, spec_cpu_sum_from topology (p :: l) a =
          spec_cpu_sum_from topology l
            (match topology.get_host p.1 with
             | some host => a + max 0 (p.2 / host.cpu_mips - 1)
             | none => a) := fun a => rfl
      rw [hcons, hcons 0]
      match topology.get_host p.1 with
      | some host => rw [ih, ih (0 + _)]; ring
      | none => rw [ih, ih 0]

/-- The code's CPU penalty loop equals the accumulator plus the coefficient
times the spec-worded sum. -/
theorem cpu_penalty_from_eq_spec (topology : FogCloudTopology) (coeffs : PenaltyCoeffs) :
    ∀ (loads : List (ℕ × ℝ)) (acc : ℝ),
      cpu_penalty_from topology coeffs loads acc =
        acc + coeffs.cpu * spec_cpu_sum_from topology loads 0 := by
  intro loads
  induction loads with
  | nil => intro acc; simp [cpu_penalty_from, spec_cpu_sum_from]
  | cons p l ih =>
      intro acc
      have hcons : ∀ a : ℝ, cpu_penalty_from topology coeffs (p :: l) a =
          cpu_penalty_from topology coeffs l
            (match topology.get_host p.1 with
             | some host =>
                 if 1 < p.2 / host.cpu_mips then a + coeffs.cpu * (p.2 / host.cpu_mips - 1)
                 else a
             | none => a) := fun a => rfl
      have hspec : spec_cpu_sum_from topology (p :: l) 0 =
          spec_cpu_sum_from topology l
            (match topology.get_host p.1 with
             | some host => 0 + max 0 (p.2 / host.cpu_mips - 1)
             | none => 0) := rfl
      rw [hcons, hspec]
      match topology.get_host p.1 with
      | some host =>
          show cpu_penalty_from topology coeffs l
              (if 1 < p.2 / host.cpu_mips then acc + coeffs.cpu * (p.2 / host.cpu_mips - 1)
               else acc) =
            acc + coeffs.cpu * spec_cpu_sum_from topology l (0 + max 0 (p.2 / host.cpu_mips - 1))
          rw [spec_cpu_sum_from_shift]
          by_cases hu : 1 < p.2 / host.cpu_mips
          · rw [if_pos hu, ih, max_eq_right (by linarith)]
            ring
          · rw [if_neg hu, ih, max_eq_left (by linarith [not_lt.mp hu])]
            ring
      | none =>
          show cpu_penalty_from topology coeffs l acc =
            acc + coeffs.cpu * spec_cpu_sum_from topology l 0
          rw [ih]

/-- Claim C5, part 1 as an equation usable everywhere: the CPU component
computed by `penalty_function` equals the specification's formula. -/
theorem cpu_penalty_eq_spec (topology : FogCloudTopology) (tasks : List Task)
    (schedule : Schedule) (coeffs : PenaltyCoeffs) :
    cpu_penalty topology tasks schedule coeffs =
      spec_cpu_penalty topology tasks schedule coeffs := by
  rw [cpu_penalty, spec_cpu_penalty, cpu_penalty_from_eq_spec]
  ring

/-- Inserting into the empty load dictionary. -/
theorem addLoad_nil (k : ℕ) (v : ℝ) : addLoad [] k v = [(k, v)] := by
  simp [addLoad]

/-- Inserting an existing key accumulates in place. -/
theorem addLoad_same (k : ℕ) (s v : ℝ) : addLoad [(k, s)] k v = [(k, s + v)] := by
  simp [addLoad]

/-- When every task is assigned to the single host `host_id`, the CPU load
dictionary accumulates the whole workload there. -/
theorem cpu_load_from_single (schedule : Schedule) (host_id : ℕ) :
    ∀ (tasks : List Task),
      (∀ t ∈ tasks, ∃ fr, schedule.assignments t.task_id = some ([host_id], fr)) →
      ∀ s : ℝ, cpu_load_from schedule tasks [(host_id, s)] =
        [(host_id, s + (tasks.map Task.workload_mi).sum)] := by
  intro tasks
  induction tasks with
  | nil => intro _ s; simp [cpu_load_from]
  | cons t ts ih =>
      intro hassign s
      obtain ⟨fr, hfr⟩ := hassign t (List.mem_cons_self t ts)
      have hcons : cpu_load_from schedule (t :: ts) [(host_id, s)] =
          cpu_load_from schedule ts
            (match schedule.assignments t.task_id with
             | none => [(host_id, s)]
             | some (node_ids, _) =>
                 node_ids.foldl (fun m node_id => addLoad m node_id t.workload_mi)
                   [(host_id, s)]) := rfl
      rw [hcons, hfr]
      show cpu_load_from schedule ts
        (addLoad [(host_id, s)] host_id t.workload_mi) = _
      rw [addLoad_same,
        ih (fun u hu => hassign u (List.mem_cons_of_mem t hu)) (s + t.workload_mi)]
      rw [List.map_cons, List.sum_cons]
      ring_nf

/-- When every task is assigned to the single host `host_id` and the task
list is nonempty, the CPU load dictionary is exactly one entry carrying the
total workload. -/
theorem cpu_load_single (schedule : Schedule) (host_id : ℕ) (t : Task) (ts : List Task)
    (hassign : ∀ u ∈ t :: ts, ∃ fr, schedule.assignments u.task_id = some ([host_id], fr)) :
    cpu_load (t :: ts) schedule =
      [(host_id, ((t :: ts).map Task.workload_mi).sum)] := by
  obtain ⟨fr, hfr⟩ := hassign t (List.mem_cons_self t ts)
  have hcons : cpu_load (t :: ts) schedule =
      cpu_load_from schedule ts
        (match schedule.assignments t.task_id with
         | none => ([] : List (ℕ × ℝ))
         | some (node_ids, _) =>
             node_ids.foldl (fun m node_id => addLoad m node_id t.workload_mi) []) := rfl
  rw [hcons, hfr]
  show cpu_load_from schedule ts (addLoad [] host_id t.workload_mi) = _
  rw [addLoad_nil,
    cpu_load_from_single schedule host_id ts
      (fun u hu => hassign u (List.mem_cons_of_mem t hu)) t.workload_mi]
  rw [List.map_cons, List.sum_cons]

/-- The memory penalty loop never decreases its accumulator when the memory
coefficient is nonnegative. -/
theorem memory_penalty_from_ge (topology : FogCloudTopology) (coeffs : PenaltyCoeffs)
    (hc : 0 ≤ coeffs.memory) :
    ∀ (loads : List (ℕ × ℝ)) (acc : ℝ), acc ≤ memory_penalty_from topology coeffs loads acc := by
  intro loads
  induction loads with
  | nil => intro acc; simp [memory_penalty_from]
  | cons p l ih =>
      intro acc
      have hcons : memory_penalty_from topology coeffs (p :: l) acc =
          memory_penalty_from topology coeffs l
            (match topology.get_host p.1 with
             | some host =>
                 if 1 < p.2 / host.memory_mb then
                   acc + coeffs.memory * (p.2 / host.memory_mb - 1)
                 else acc
             | none => acc) := rfl
      rw [hcons]
      match topology.get_host p.1 with
      | some host =>
          show acc ≤ memory_penalty_from topology coeffs l
            (if 1 < p.2 / host.memory_mb then
              acc + coeffs.memory * (p.2 / host.memory_mb - 1)
             else acc)
          by_cases hu : 1 < p.2 / host.memory_mb
          · rw [if_pos hu]
            have := ih (acc + coeffs.memory * (p.2 / host.memory_mb - 1))
            nlinarith
          · rw [if_neg hu]; exact ih acc
      | none =>
          show acc ≤ memory_penalty_from topology coeffs l acc
          exact ih acc

/-- Under the single-host scenario the deadline loop stays defined and never
decreases its accumulator. -/
theorem deadline_penalty_from_assigned (topology : FogCloudTopology) (schedule : Schedule)
    (coeffs : PenaltyCoeffs) (host_id : ℕ) (host : Host)
    (hhost : topology.get_host host_id = some host) (hdl : 0 ≤ coeffs.deadline) :
    ∀ (tasks : List Task),
      (∀ t ∈ tasks, ∃ fr, schedule.assignments t.task_id = some ([host_id], fr)) →
      ∀ acc : ℝ,
        ∃ dl, deadline_penalty_from topology schedule coeffs tasks (some acc) = some dl ∧
          acc ≤ dl := by
  intro tasks
  induction tasks with
  | nil => exact fun _ acc => ⟨acc, rfl, le_rfl⟩
  | cons t ts ih =>
      intro hassign acc
      obtain ⟨fr, hfr⟩ := hassign t (List.mem_cons_self t ts)
      have htail := fun u hu => hassign u (List.mem_cons_of_mem t hu)
      have hcons :
          deadline_penalty_from topology schedule coeffs (t :: ts) (some acc) =
          deadline_penalty_from topology schedule coeffs ts
            ((some acc).bind (fun penalty =>
              match schedule.assignments t.task_id with
              | none => some (penalty + coeffs.deadline)
              | some (node_ids, frequency_ghz) =>
                  match node_ids.head? with
                  | none => some penalty
                  | some node_id =>
                      if node_id = 0 then some penalty
                      else
                        match topology.get_host node_id with
                        | none => none
                        | some host =>
                            if (task_total_time t t.source_device_id host frequency_ghz
                                topology).gtR t.deadline_s
                            then some (penalty + coeffs.deadline) else some penalty)) := rfl
      have hacc :
          deadline_penalty_from topology schedule coeffs (t :: ts) (some acc) =
          deadline_penalty_from topology schedule coeffs ts
            (if host_id = 0 then some acc
             else if (task_total_time t t.source_device_id host fr topology).gtR t.deadline_s
             then some (acc + coeffs.deadline) else some acc) := by
        rw [hcons]
        simp only [hfr, hhost, List.head?_cons, Option.some_bind]
      rw [hacc]
      by_cases h0 : host_id = 0
      · rw [if_pos h0]
        exact ih htail acc
      · rw [if_neg h0]
        by_cases hgt :
            (task_total_time t t.source_device_id host fr topology).gtR t.deadline_s
        · rw [if_pos hgt]
          obtain ⟨dl, hdl', hle⟩ := ih htail (acc + coeffs.deadline)
          exact ⟨dl, hdl', by linarith⟩
        · rw [if_neg hgt]
          exact ih htail acc

/-- Under the single-host scenario with a positive processing rate, one
reliability step adds a nonnegative finite amount. -/
theorem reliability_step_fin (topology : FogCloudTopology) (schedule : Schedule)
    (coeffs : PenaltyCoeffs) (host_id : ℕ) (host : Host)
    (hhost : topology.get_host host_id = some host) (hcpu : 0 < host.cpu_mips)
    (hrel : 0 ≤ coeffs.reliability) (t : Task) (fr : ℝ)
    (hfr : schedule.assignments t.task_id = some ([host_id], fr)) (a : ℝ) :
    ∃ c : ℝ, 0 ≤ c ∧
      reliability_step topology schedule coeffs (Fl.fin a) t = Fl.fin (a + c) := by
  rw [reliability_step]
  by_cases hcrit : t.criticality = 0
  · rw [if_pos hcrit]
    exact ⟨0, le_rfl, by norm_num⟩
  · rw [if_neg hcrit]
    have hexec : task_execution_time t host fr = Fl.fin (t.workload_mi / host.cpu_mips) := by
      rw [task_execution_time, if_pos hcpu]
    have hprobs : ([host_id] : List ℕ).filterMap (fun node_id =>
        (topology.get_host node_id).map (fun host =>
          node_success_probability host (task_execution_time t host fr))) =
        [Fl.fin (Real.exp (-(host.failure_rate / 3600 * (t.workload_mi / host.cpu_mips))))] := by
      rw [List.filterMap_cons, hhost]
      show [node_success_probability host (task_execution_time t host fr)] = _
      rw [hexec]
      rfl
    have hts : task_success_with_replication
        [Fl.fin (Real.exp (-(host.failure_rate / 3600 * (t.workload_mi / host.cpu_mips))))] =
        Fl.fin (1 - 1 * (1 - Real.exp
          (-(host.failure_rate / 3600 * (t.workload_mi / host.cpu_mips))))) := by
      show (Fl.fin 1).sub (List.foldl _ (Fl.fin 1) _) = _
      rw [List.foldl_cons, List.foldl_nil, Fl.sub_fin_fin, Fl.mul_fin_fin, Fl.sub_fin_fin]
    simp only [hfr, hprobs, hts]
    set e : ℝ := Real.exp (-(host.failure_rate / 3600 * (t.workload_mi / host.cpu_mips)))
    by_cases hlt : 1 - 1 * (1 - e) < 0.99
    · rw [if_pos (by simpa using hlt)]
      refine ⟨coeffs.reliability * (0.99 - (1 - 1 * (1 - e))), ?_, ?_⟩
      · exact mul_nonneg hrel (by linarith)
      · rw [Fl.sub_fin_fin, Fl.mul_fin_fin, Fl.add_fin_fin]
    · rw [if_neg (by simpa using hlt)]
      exact ⟨0, le_rfl, by norm_num⟩

/-- Under the single-host scenario the reliability loop keeps the running
total finite and never decreases it. -/
theorem reliability_fold_fin (topology : FogCloudTopology) (schedule : Schedule)
    (coeffs : PenaltyCoeffs) (host_id : ℕ) (host : Host)
    (hhost : topology.get_host host_id = some host) (hcpu : 0 < host.cpu_mips)
    (hrel : 0 ≤ coeffs.reliability) :
    ∀ (tasks : List Task),
      (∀ t ∈ tasks, ∃ fr, schedule.assignments t.task_id = some ([host_id], fr)) →
      ∀ a : ℝ, ∃ r, reliability_fold topology tasks schedule coeffs (Fl.fin a) = Fl.fin r ∧
        a ≤ r := by
  intro tasks
  induction tasks with
  | nil => exact fun _ a => ⟨a, rfl, le_rfl⟩
  | cons t ts ih =>
      intro hassign a
      obtain ⟨fr, hfr⟩ := hassign t (List.mem_cons_self t ts)
      obtain ⟨c, hc0, hstep⟩ := reliability_step_fin topology schedule coeffs host_id host
        hhost hcpu hrel t fr hfr a
      have hcons : reliability_fold topology (t :: ts) schedule coeffs (Fl.fin a) =
          reliability_fold topology ts schedule coeffs
            (reliability_step topology schedule coeffs (Fl.fin a) t) := rfl
      rw [hcons, hstep]
      obtain ⟨r, hr, hle⟩ := ih (fun u hu => hassign u (List.mem_cons_of_mem t hu)) (a + c)
      exact ⟨r, hr, by linarith⟩

/-- Claim C5: the CPU component of `penalty_function` equals the CPU penalty
coefficient times the sum over loaded hosts of `max(0, load/capacity - 1)`
(first conjunct, for every input); and for a schedule assigning every task of
a set with total workload above the (positive) capacity of one existing host
to exactly that host, with nonnegative coefficients and a positive CPU
coefficient, the CPU component is `penaltyCpu * (totalLoad/capacity - 1)` and
the total penalty is finite and strictly positive. -/
theorem C5_cpu_penalty_characterization (topology : FogCloudTopology)
    (tasks : List Task) (schedule : Schedule) (coeffs : PenaltyCoeffs)
    (host_id : ℕ) (host : Host)
    (hhost : topology.get_host host_id = some host)
    (hassign : ∀ t ∈ tasks, ∃ fr, schedule.assignments t.task_id = some ([host_id], fr))
    (hcap : 0 < host.cpu_mips)
    (hover : host.cpu_mips < (tasks.map Task.workload_mi).sum)
    (hc1 : 0 < coeffs.cpu) (hc2 : 0 ≤ coeffs.memory) (hc3 : 0 ≤ coeffs.deadline)
    (hc4 : 0 ≤ coeffs.reliability) :
    (∀ (topology2 : FogCloudTopology) (tasks2 : List Task) (schedule2 : Schedule)
        (coeffs2 : PenaltyCoeffs),
      cpu_penalty topology2 tasks2 schedule2 coeffs2 =
        spec_cpu_penalty topology2 tasks2 schedule2 coeffs2) ∧
    cpu_penalty topology tasks schedule coeffs =
      coeffs.cpu * ((tasks.map Task.workload_mi).sum / host.cpu_mips - 1) ∧
    ∃ P : ℝ, penalty_function topology tasks schedule coeffs = some (Fl.fin P) ∧ 0 < P := by
  match tasks, hassign, hover with
  | [], _, hover =>
      exfalso
      rw [List.map_nil, List.sum_nil] at hover
      linarith
  | t :: ts, hassign, hover =>
      have hu : 1 < ((t :: ts).map Task.workload_mi).sum / host.cpu_mips :=
        (one_lt_div hcap).mpr hover
      have hload := cpu_load_single schedule host_id t ts hassign
      have hcpuval : cpu_penalty topology (t :: ts) schedule coeffs =
          coeffs.cpu * (((t :: ts).map Task.workload_mi).sum / host.cpu_mips - 1) := by
        rw [cpu_penalty, hload]
        have h2 : cpu_penalty_from topology coeffs
            [(host_id, ((t :: ts).map Task.workload_mi).sum)] 0 =
            (match topology.get_host host_id with
             | some host =>
                 if 1 < ((t :: ts).map Task.workload_mi).sum / host.cpu_mips then
                   0 + coeffs.cpu * (((t :: ts).map Task.workload_mi).sum / host.cpu_mips - 1)
                 else 0
             | none => (0 : ℝ)) := rfl
        rw [h2, hhost]
        show (if 1 < ((t :: ts).map Task.workload_mi).sum / host.cpu_mips then
            0 + coeffs.cpu * (((t :: ts).map Task.workload_mi).sum / host.cpu_mips - 1)
          else 0) = _
        rw [if_pos hu]
        ring
      obtain ⟨dl, hdl, hdl0⟩ := deadline_penalty_from_assigned topology schedule coeffs
        host_id host hhost hc3 (t :: ts) hassign 0
      have hmem : 0 ≤ memory_penalty topology (t :: ts) schedule coeffs :=
        memory_penalty_from_ge topology coeffs hc2 (mem_load (t :: ts) schedule) 0
      have hcpu_pos : 0 < cpu_penalty topology (t :: ts) schedule coeffs := by
        rw [hcpuval]
        exact mul_pos hc1 (by linarith)
      obtain ⟨r, hr, hrge⟩ := reliability_fold_fin topology schedule coeffs host_id host
        hhost hcap hc4 (t :: ts) hassign
        (cpu_penalty topology (t :: ts) schedule coeffs
          + memory_penalty topology (t :: ts) schedule coeffs + dl)
      refine ⟨cpu_penalty_eq_spec, hcpuval, r, ?_, by linarith⟩
      rw [penalty_function, deadline_penalty, hdl]
      exact congrArg some hr

/-- Claim C5, witness: one task of workload 2 on host 1 (capacity 1). -/
theorem C5_cpu_penalty_characterization_witness :
    (∀ (topology2 : FogCloudTopology) (tasks2 : List Task) (schedule2 : Schedule)
        (coeffs2 : PenaltyCoeffs),
      cpu_penalty topology2 tasks2 schedule2 coeffs2 =
        spec_cpu_penalty topology2 tasks2 schedule2 coeffs2) ∧
    cpu_penalty topoE [taskE] schedE coeffsE =
      coeffsE.cpu * (([taskE].map Task.workload_mi).sum / (Host.fog fogE).cpu_mips - 1) ∧
    ∃ P : ℝ, penalty_function topoE [taskE] schedE coeffsE = some (Fl.fin P) ∧ 0 < P :=
  C5_cpu_penalty_characterization topoE [taskE] schedE coeffsE 1 (Host.fog fogE)
    rfl
    (by
      intro t ht
      rw [List.mem_singleton] at ht
      subst ht
      exact ⟨2, rfl⟩)
    zero_lt_one
    (by norm_num [fogE, taskE, Host.cpu_mips])
    zero_lt_one le_rfl le_rfl le_rfl

/-- The leader order is total. -/
theorem leader_order_total (ws : List Wolf) : ∀ i j, leader_order ws i j ∨ leader_order ws j i := by
  intro i j
  rcases lt_trichotomy (ws.getD i default).fitness (ws.getD j default).fitness with h | h | h
  · exact Or.inl (Or.inl h)
  · rcases Nat.le_total i j with hij | hij
    · exact Or.inl (Or.inr ⟨h, hij⟩)
    · exact Or.inr (Or.inr ⟨h.symm, hij⟩)
  · exact Or.inr (Or.inl h)

/-- The leader order is transitive. -/
theorem leader_order_trans (ws : List Wolf) :
    ∀ i j k, leader_order ws i j → leader_order ws j k → leader_order ws i k := by
  intro i j k hij hjk
  rcases hij with h1 | ⟨h1, h1le⟩ <;> rcases hjk with h2 | ⟨h2, h2le⟩
  · exact Or.inl (h1.trans h2)
  · exact Or.inl (lt_of_lt_of_le h1 (le_of_eq h2))
  · exact Or.inl (lt_of_le_of_lt (le_of_eq h1) h2)
  · exact Or.inr ⟨h1.trans h2, h1le.trans h2le⟩

/-- The leader order implies the fitness comparison. -/
theorem leader_order_le (ws : List Wolf) (i j : ℕ) (h : leader_order ws i j) :
    (ws.getD i default).fitness ≤ (ws.getD j default).fitness :=
  h.elim le_of_lt (fun hp => le_of_eq hp.1)

/-- The alpha index produced by `_update_leaders` is in range and names a
wolf of minimal fitness. -/
theorem update_leaders_idx_min (ws : List Wolf) (ia ib idl : ℕ)
    (h : update_leaders_idx ws = some (ia, ib, idl)) :
    ia < ws.length ∧ ∀ j, j < ws.length →
      (ws.getD ia default).fitness ≤ (ws.getD j default).fitness := by
  haveI : IsTotal ℕ (leader_order ws) := ⟨leader_order_total ws⟩
  haveI : IsTrans ℕ (leader_order ws) := ⟨fun a b c => leader_order_trans ws a b c⟩
  unfold update_leaders_idx at h
  generalize hs : List.insertionSort (leader_order ws) (List.range ws.length) = s at h
  have hperm : s.Perm (List.range ws.length) := by
    rw [← hs]; exact List.perm_insertionSort _ _
  have hsorted : List.Sorted (leader_order ws) s := by
    rw [← hs]; exact List.sorted_insertionSort _ _
  cases s with
  | nil => exact absurd h (by simp)
  | cons a rest0 =>
      have hia : a = ia := by
        cases rest0 with
        | nil =>
            injection h with h'
            injection h' with h1 h2
        | cons b rest1 =>
            cases rest1 with
            | nil =>
                injection h with h'
                injection h' with h1 h2
            | cons c rest2 =>
                injection h with h'
                injection h' with h1 h2
      subst hia
      constructor
      · exact List.mem_range.mp (hperm.subset (List.mem_cons_self a rest0))
      · intro j hj
        have hjmem : j ∈ a :: rest0 := hperm.symm.subset (List.mem_range.mpr hj)
        rcases List.mem_cons.mp hjmem with rfl | hjr
        · exact le_refl _
        · exact leader_order_le ws a j ((List.pairwise_cons.mp hsorted).1 j hjr)

/-- Evaluation preserves the population size. -/
theorem evaluate_wolves_length (f : List ℝ → WithTop ℝ) (ws : List Wolf) :
    (evaluate_wolves f ws).length = ws.length := by
  simp [evaluate_wolves]

/-- The per-wolf evaluation step does not move the wolf. -/
theorem eval_wolf_position (f : List ℝ → WithTop ℝ) (w : Wolf) :
    (({ w with fitness := f w.position }).update_pbest (f w.position)).position =
      w.position := by
  unfold Wolf.update_pbest
  split <;> rfl

/-- The per-wolf evaluation step records exactly the evaluated fitness. -/
theorem eval_wolf_fitness (f : List ℝ → WithTop ℝ) (w : Wolf) :
    (({ w with fitness := f w.position }).update_pbest (f w.position)).fitness =
      f w.position := by
  unfold Wolf.update_pbest
  split <;> rfl

/-- Pointwise description of the evaluated population. -/
theorem evaluate_wolves_getD (f : List ℝ → WithTop ℝ) (ws : List Wolf) (i : ℕ)
    (hi : i < ws.length) :
    (evaluate_wolves f ws).getD i default =
      ({ ws.getD i default with fitness := f (ws.getD i default).position }).update_pbest
        (f (ws.getD i default).position) := by
  simp only [evaluate_wolves]
  rw [List.getD_eq_getElem?_getD, List.getElem?_map, List.getElem?_eq_getElem hi]
  rw [List.getD_eq_getElem?_getD, List.getElem?_eq_getElem hi]
  rfl

/-- Positions are untouched by the evaluation pass. -/
theorem evaluate_wolves_position (f : List ℝ → WithTop ℝ) (ws : List Wolf) (i : ℕ)
    (hi : i < ws.length) :
    ((evaluate_wolves f ws).getD i default).position = (ws.getD i default).position := by
  rw [evaluate_wolves_getD f ws i hi, eval_wolf_position]

/-- The evaluated fitness is the fitness function of the position. -/
theorem evaluate_wolves_fitness (f : List ℝ → WithTop ℝ) (ws : List Wolf) (i : ℕ)
    (hi : i < ws.length) :
    ((evaluate_wolves f ws).getD i default).fitness = f ((ws.getD i default).position) := by
  rw [evaluate_wolves_getD f ws i hi, eval_wolf_fitness]

/-- Indexing a `mapIdx` result. -/
theorem getD_mapIdx (l : List Wolf) (g : ℕ → Wolf → Wolf) (i : ℕ) (hi : i < l.length) :
    (l.mapIdx g).getD i default = g i (l.getD i default) := by
  have h1 : (l.mapIdx g).getD i default = (l.mapIdx g).get ⟨i, by
      rw [List.length_mapIdx]; exact hi⟩ :=
    List.getD_eq_get _ _ _
  rw [h1, List.get_mapIdx l g i hi, List.getD_eq_get _ _ hi]

/-- A generation always succeeds on a nonempty population. -/
theorem gen_step_isSome (f : List ℝ → WithTop ℝ) (st : MDGWOState) (t : ℕ)
    (hne : 0 < st.wolves.length) :
    ∃ ia ib idl,
      update_leaders_idx (evaluate_wolves f st.wolves) = some (ia, ib, idl) := by
  unfold update_leaders_idx
  generalize hs : List.insertionSort (leader_order (evaluate_wolves f st.wolves))
    (List.range (evaluate_wolves f st.wolves).length) = s
  match s, hs with
  | [], hs =>
      exfalso
      have hperm : List.Perm ([] : List ℕ)
          (List.range (evaluate_wolves f st.wolves).length) := by
        rw [← hs]; exact List.perm_insertionSort _ _
      have := hperm.length_eq
      rw [List.length_range, evaluate_wolves_length, List.length_nil] at this
      omega
  | [a], _ => exact ⟨a, a, a, rfl⟩
  | [a, b], _ => exact ⟨a, b, a, rfl⟩
  | a :: b :: c :: rest, _ => exact ⟨a, b, c, rfl⟩

/-- What one generation does to the history: it appends the evaluated
fitness of a wolf whose position survives into the next population unchanged
(the α leader is excluded from the update), and that value is a lower bound
for the evaluated fitness of every current wolf. -/
theorem gen_step_spec (f : List ℝ → WithTop ℝ) (st : MDGWOState) (t : ℕ)
    (st1 : MDGWOState) (h : gen_step f st t = some st1)
    (ia ib idl : ℕ)
    (hlead : update_leaders_idx (evaluate_wolves f st.wolves) = some (ia, ib, idl)) :
    st1.wolves.length = st.wolves.length ∧
    ∃ bf, st1.best_fitness_history = st.best_fitness_history ++ [bf] ∧
      (∃ i, i < st1.wolves.length ∧ f ((st1.wolves.getD i default).position) = bf) ∧
      (∀ j, j < st.wolves.length → bf ≤ f ((st.wolves.getD j default).position)) := by
  obtain ⟨hia, hmin⟩ := update_leaders_idx_min _ ia ib idl hlead
  rw [evaluate_wolves_length] at hia
  simp only [gen_step] at h
  rw [hlead] at h
  have hst1 := Option.some.inj h
  have hialt : ia < (evaluate_wolves f st.wolves).length := by
    rw [evaluate_wolves_length]; exact hia
  have hwolves : st1.wolves =
      (evaluate_wolves f st.wolves).mapIdx (fun i w =>
        if i = ia ∨ i = ib ∨ i = idl then w
        else update_wolf (memory_coefficient st.memory_decay st.max_iterations t)
          st.num_hosts
          ((evaluate_wolves f st.wolves).getD ia default).position
          ((evaluate_wolves f st.wolves).getD ib default).position
          ((evaluate_wolves f st.wolves).getD idl default).position w) := by
    rw [← hst1]
  have hhist : st1.best_fitness_history =
      st.best_fitness_history ++ [((evaluate_wolves f st.wolves).getD ia default).fitness] := by
    rw [← hst1]
  have hlen : st1.wolves.length = st.wolves.length := by
    rw [hwolves, List.length_mapIdx, evaluate_wolves_length]
  refine ⟨hlen, ((evaluate_wolves f st.wolves).getD ia default).fitness, hhist, ?_, ?_⟩
  · refine ⟨ia, by rw [hlen]; exact hia, ?_⟩
    rw [hwolves, getD_mapIdx _ _ ia hialt, if_pos (Or.inl rfl)]
    rw [evaluate_wolves_position f st.wolves ia hia, ←
      evaluate_wolves_fitness f st.wolves ia hia]
  · intro j hj
    have := hmin j (by rw [evaluate_wolves_length]; exact hj)
    rw [evaluate_wolves_fitness f st.wolves j hj] at this
    exact this

/-- The optimization loop on a nonempty population: it always succeeds, the
history grows by one entry per generation, and the history is monotonically
non-increasing, provided the history so far is non-increasing and its last
entry dominates the evaluated fitness of some current wolf. -/
theorem optimize_loop_spec (f : List ℝ → WithTop ℝ) :
    ∀ (n t : ℕ) (st : MDGWOState),
      0 < st.wolves.length →
      List.Chain' (fun a b => b ≤ a) st.best_fitness_history →
      (∀ bl, st.best_fitness_history.getLast? = some bl →
        ∃ i, i < st.wolves.length ∧ f ((st.wolves.getD i default).position) ≤ bl) →
      ∃ st1, optimize_loop f t n st = some st1 ∧
        st1.best_fitness_history.length = st.best_fitness_history.length + n ∧
        List.Chain' (fun a b => b ≤ a) st1.best_fitness_history := by
  intro n
  induction n with
  | zero =>
      intro t st hne hch hlast
      exact ⟨st, rfl, by omega, hch⟩
  | succ n ih =>
      intro t st hne hch hlast
      obtain ⟨ia, ib, idl, hlead⟩ := gen_step_isSome f st t hne
      obtain ⟨st1, hg⟩ : ∃ st1, gen_step f st t = some st1 := by
        simp only [gen_step]
        rw [hlead]
        exact ⟨_, rfl⟩
      obtain ⟨hlen, bf, hhist, ⟨i, hi, hfi⟩, hmin⟩ :=
        gen_step_spec f st t st1 hg ia ib idl hlead
      have hch1 : List.Chain' (fun a b => b ≤ a) st1.best_fitness_history := by
        rw [hhist]
        refine List.chain'_append.mpr ⟨hch, List.chain'_singleton bf, ?_⟩
        intro x hx y hy
        rw [List.head?_cons, Option.mem_def, Option.some.injEq] at hy
        subst hy
        obtain ⟨i0, hi0, hle0⟩ := hlast x hx
        exact le_trans (hmin i0 hi0) hle0
      have hlast1 : ∀ bl, st1.best_fitness_history.getLast? = some bl →
          ∃ i2, i2 < st1.wolves.length ∧
            f ((st1.wolves.getD i2 default).position) ≤ bl := by
        intro bl hbl
        rw [hhist, List.getLast?_concat] at hbl
        rw [Option.some.injEq] at hbl
        subst hbl
        exact ⟨i, hi, le_of_eq hfi⟩
      have hne1 : 0 < st1.wolves.length := by rw [hlen]; exact hne
      obtain ⟨st2, hloop, hlen2, hch2⟩ := ih (t + 1) st1 hne1 hch1 hlast1
      refine ⟨st2, ?_, ?_, hch2⟩
      · show (gen_step f st t).bind (optimize_loop f (t + 1) n) = some st2
        rw [hg]
        exact hloop
      · rw [hlen2, hhist, List.length_append, List.length_singleton]
        omega

/-- Claim C3: for a pure fitness function of the position vector and a
nonempty population, `optimize` succeeds, records one best-fitness entry per
generation, and the recorded sequence is monotonically non-increasing:
`history[t] <= history[t-1]` for every `t >= 1`.  (The alpha wolf is excluded
from the position update, so its re-evaluated fitness cannot regress.) -/
theorem C3_best_fitness_monotone (f : List ℝ → WithTop ℝ) (st : MDGWOState)
    (hne : 0 < st.wolves.length) (t : ℕ) (ht1 : 1 ≤ t)
    (ht2 : t < st.max_iterations.toNat) :
    ∃ st1, optimize f st = some st1 ∧
      st1.best_fitness_history.length = st.max_iterations.toNat ∧
      st1.best_fitness_history.getD t ⊤ ≤ st1.best_fitness_history.getD (t - 1) ⊤ := by
  obtain ⟨st1, hloop, hlen, hch⟩ := optimize_loop_spec f st.max_iterations.toNat 0
    { st with best_fitness_history := [] } hne List.chain'_nil
    (by intro bl hbl; exact absurd hbl (by simp))
  have hlen1 : st1.best_fitness_history.length = st.max_iterations.toNat := by
    rw [hlen]; simp
  refine ⟨st1, hloop, hlen1, ?_⟩
  have hidx : t - 1 < st1.best_fitness_history.length - 1 := by omega
  have hstep := List.chain'_iff_get.mp hch (t - 1) hidx
  have hidx2 : t - 1 + 1 = t := by omega
  rw [List.getD_eq_get _ _ (by omega : t < st1.best_fitness_history.length),
    List.getD_eq_get _ _ (by omega : t - 1 < st1.best_fitness_history.length)]
  simpa only [hidx2] using hstep

/-- Claim C3, witness: one wolf, two generations, constant fitness. -/
theorem C3_best_fitness_monotone_witness :
    ∃ st1, optimize (fun _ => (0 : WithTop ℝ)) stateD = some st1 ∧
      st1.best_fitness_history.length = stateD.max_iterations.toNat ∧
      st1.best_fitness_history.getD 1 ⊤ ≤ st1.best_fitness_history.getD (1 - 1) ⊤ :=
  C3_best_fitness_monotone (fun _ => (0 : WithTop ℝ)) stateD (by decide) 1
    (by decide) (by decide)

/-- Claim C2, counterexample: constructing `MDGWO` with the invalid budget
`max_iterations = 0` is not rejected - the constructor returns the populated
state and never an error. -/
theorem C2_counterexample :
    MDGWOInit 5 3 100 0 "linear" =
      Except.ok
        { num_tasks := 5, num_hosts := 3, population_size := 100,
          max_iterations := 0, memory_decay := "linear", wolves := [],
          alpha := none, beta := none, delta := none, iteration := 0,
          best_fitness_history := [] } ∧
    ∀ msg : String, MDGWOInit 5 3 100 0 "linear" ≠ Except.error msg :=
  ⟨rfl, fun _ h => Except.noConfusion h⟩

/-- Claim C2, amended: `MDGWO.__init__` performs no hyperparameter
validation; every construction - including a non-positive iteration budget -
succeeds and stores the given hyperparameters unchanged. -/
theorem C2_init_accepts_all_hyperparameters (num_tasks num_hosts : ℕ)
    (population_size max_iterations : ℤ) (memory_decay : String) :
    MDGWOInit num_tasks num_hosts population_size max_iterations memory_decay =
      Except.ok
        { num_tasks := num_tasks, num_hosts := num_hosts,
          population_size := population_size, max_iterations := max_iterations,
          memory_decay := memory_decay, wolves := [],
          alpha := none, beta := none, delta := none, iteration := 0,
          best_fitness_history := [] } := rfl

/-- Claim C6: `task_execution_time` and `transfer_time_s` are total and treat
non-positive denominators as `float('inf')`: execution time is
`workload/rate` for a positive rate and `+inf` otherwise; transfer time is
`size*8/bandwidth + latency/1000` for positive bandwidth and `+inf`
otherwise (`total_transfer_time` is the identical formula). -/
theorem C6_time_functions_total (task : Task) (host : Host) (fr s bw l : ℝ) :
    (0 < host.cpu_mips →
      task_execution_time task host fr = Fl.fin (task.workload_mi / host.cpu_mips)) ∧
    (host.cpu_mips ≤ 0 → task_execution_time task host fr = Fl.inf) ∧
    (0 < bw → transfer_time_s s bw l = Fl.fin (s * 8 / bw + l / 1000)) ∧
    (bw ≤ 0 → transfer_time_s s bw l = Fl.inf) ∧
    total_transfer_time s bw l = transfer_time_s s bw l := by
  refine ⟨fun h => ?_, fun h => ?_, fun h => ?_, fun h => ?_, rfl⟩
  · rw [task_execution_time, if_pos h]
  · rw [task_execution_time, if_neg (not_lt.mpr h)]
  · rw [transfer_time_s, if_pos h, Fl.add_fin_fin]
  · rw [transfer_time_s, if_neg (not_lt.mpr h)]
    rfl

/-- Claim C6, witness at concrete inputs. -/
theorem C6_time_functions_total_witness :
    task_execution_time taskG (Host.fog fogG) 2 =
      Fl.fin (taskG.workload_mi / (Host.fog fogG).cpu_mips) ∧
    task_execution_time taskG (Host.fog fogN) 2 = Fl.inf ∧
    transfer_time_s 1 2 50 = Fl.fin (1 * 8 / 2 + 50 / 1000) ∧
    transfer_time_s 1 0 50 = Fl.inf :=
  ⟨(C6_time_functions_total taskG (Host.fog fogG) 2 1 2 50).1 zero_lt_one,
   (C6_time_functions_total taskG (Host.fog fogN) 2 1 2 50).2.1 le_rfl,
   (C6_time_functions_total taskG (Host.fog fogG) 2 1 2 50).2.2.1 zero_lt_two,
   (C6_time_functions_total taskG (Host.fog fogG) 2 1 0 50).2.2.2.1 le_rfl⟩

/-- Claim C7: `decode_position` is a deterministic, side-effect-free
function of the position vector (and the `num_tasks`/`num_hosts` counts it
spans): the call leaves the wolf unchanged, decoding twice yields the same
schedule, and wolves agreeing on those fields decode identically. -/
theorem C7_decode_position_pure (w w1 w2 : Wolf) :
    w.decode_position_run.2 = w ∧
    (w.decode_position_run.2).decode_position_run.1 = w.decode_position_run.1 ∧
    (w1.position = w2.position → w1.num_tasks = w2.num_tasks →
      w1.num_hosts = w2.num_hosts → w1.decode_position = w2.decode_position) :=
  ⟨rfl, rfl, fun h1 h2 h3 => by simp only [Wolf.decode_position, h1, h2, h3]⟩

/-- Claim C7, witness at concrete wolves (same position, different fitness). -/
theorem C7_decode_position_pure_witness :
    wolfA.decode_position_run.2 = wolfA ∧
    (wolfA.decode_position_run.2).decode_position_run.1 =
      wolfA.decode_position_run.1 ∧
    wolfA.decode_position = wolfB.decode_position :=
  ⟨(C7_decode_position_pure wolfA wolfA wolfB).1,
   (C7_decode_position_pure wolfA wolfA wolfB).2.1,
   (C7_decode_position_pure wolfA wolfA wolfB).2.2 rfl rfl rfl⟩

/-- Claim C9: for a budget `I >= 1`, the linear memory-decay scheme has
`eta(0) = 1` and `eta(I) = 0`, and the exponential scheme has `eta(0) = 1`
and is strictly decreasing in the iteration. -/
theorem C9_memory_coefficient (I : ℤ) (hI : 1 ≤ I) :
    memory_coefficient "linear" I 0 = 1 ∧
    memory_coefficient "linear" I I.toNat = 0 ∧
    memory_coefficient "exponential" I 0 = 1 ∧
    ∀ s t : ℕ, s < t →
      memory_coefficient "exponential" I t < memory_coefficient "exponential" I s := by
  have hImax : max 1 I = I := max_eq_right hI
  have hIpos : (0 : ℝ) < (I : ℝ) := by exact_mod_cast hI.trans_lt' zero_lt_one
  have hlin : ∀ n : ℕ, memory_coefficient "linear" I n =
      1 - (n : ℝ) / ((max 1 I : ℤ) : ℝ) := fun n => by
    simp [memory_coefficient]
  have hexp : ∀ n : ℕ, memory_coefficient "exponential" I n =
      Real.exp (-(2 / (I : ℝ)) * (n : ℝ)) := fun n => by
    simp [memory_coefficient]
  refine ⟨?_, ?_, ?_, ?_⟩
  · rw [hlin]; simp
  · rw [hlin, hImax]
    have hc : ((I.toNat : ℕ) : ℝ) = (I : ℝ) := by
      exact_mod_cast Int.toNat_of_nonneg (by omega : (0 : ℤ) ≤ I)
    rw [hc, div_self (ne_of_gt hIpos)]
    ring
  · rw [hexp]; simp
  · intro s t hst
    rw [hexp, hexp]
    apply Real.exp_lt_exp.mpr
    have h2I : 0 < 2 / (I : ℝ) := by positivity
    have hst' : (s : ℝ) < (t : ℝ) := by exact_mod_cast hst
    nlinarith

/-- Claim C9, witness at budget `I = 2`. -/
theorem C9_memory_coefficient_witness :
    memory_coefficient "linear" 2 0 = 1 ∧
    memory_coefficient "linear" 2 (Int.toNat 2) = 0 ∧
    memory_coefficient "exponential" 2 0 = 1 ∧
    ∀ s t : ℕ, s < t →
      memory_coefficient "exponential" 2 t < memory_coefficient "exponential" 2 s :=
  C9_memory_coefficient 2 (by decide)

/-- Claim C10: `update_wolf` changes only the position of the targeted wolf:
its fitness, personal best, personal-best fitness and the task/host counts
are untouched, every other wolf is untouched (so in particular the leader
positions, when the leaders are distinct from the target), and the leader
references themselves are unchanged. -/
theorem C10_update_wolf_frame (st : MDGWOState) (k t ia ib idl : ℕ)
    (ha : st.alpha = some ia) (hb : st.beta = some ib) (hd : st.delta = some idl)
    (hk : k < st.wolves.length) (hia : ia ≠ k) (hib : ib ≠ k) (hid : idl ≠ k) :
    ((updateWolfAt st k t).wolves.getD k default).fitness =
      (st.wolves.getD k default).fitness ∧
    ((updateWolfAt st k t).wolves.getD k default).pbest =
      (st.wolves.getD k default).pbest ∧
    ((updateWolfAt st k t).wolves.getD k default).pbest_fitness =
      (st.wolves.getD k default).pbest_fitness ∧
    ((updateWolfAt st k t).wolves.getD k default).num_tasks =
      (st.wolves.getD k default).num_tasks ∧
    ((updateWolfAt st k t).wolves.getD k default).num_hosts =
      (st.wolves.getD k default).num_hosts ∧
    (∀ i, i ≠ k →
      (updateWolfAt st k t).wolves.getD i default = st.wolves.getD i default) ∧
    ((updateWolfAt st k t).wolves.getD ia default).position =
      (st.wolves.getD ia default).position ∧
    ((updateWolfAt st k t).wolves.getD ib default).position =
      (st.wolves.getD ib default).position ∧
    ((updateWolfAt st k t).wolves.getD idl default).position =
      (st.wolves.getD idl default).position ∧
    (updateWolfAt st k t).alpha = st.alpha ∧
    (updateWolfAt st k t).beta = st.beta ∧
    (updateWolfAt st k t).delta = st.delta := by
  have hw : (updateWolfAt st k t).wolves =
      st.wolves.set k (update_wolf (memory_coefficient st.memory_decay st.max_iterations t) st.num_hosts (st.wolves.getD ia default).position (st.wolves.getD ib default).position (st.wolves.getD idl default).position (st.wolves.getD k default)) := by
    unfold updateWolfAt
    rw [ha, hb, hd]
  have halpha : (updateWolfAt st k t).alpha = st.alpha := by
    unfold updateWolfAt
    rw [ha, hb, hd]
  have hbeta : (updateWolfAt st k t).beta = st.beta := by
    unfold updateWolfAt
    rw [ha, hb, hd]
  have hdelta : (updateWolfAt st k t).delta = st.delta := by
    unfold updateWolfAt
    rw [ha, hb, hd]
  have hset_self : (updateWolfAt st k t).wolves.getD k default =
      update_wolf (memory_coefficient st.memory_decay st.max_iterations t) st.num_hosts (st.wolves.getD ia default).position (st.wolves.getD ib default).position (st.wolves.getD idl default).position (st.wolves.getD k default) := by
    rw [hw]
    simp only [List.getD_eq_getElem?_getD]
    rw [List.getElem?_set_self (by exact hk)]
    rfl
  have hset_ne : ∀ i, i ≠ k →
      (updateWolfAt st k t).wolves.getD i default = st.wolves.getD i default := by
    intro i hik
    rw [hw]
    simp only [List.getD_eq_getElem?_getD]
    rw [List.getElem?_set_ne (fun h => hik h.symm)]
  refine ⟨?_, ?_, ?_, ?_, ?_, hset_ne, ?_, ?_, ?_, halpha, hbeta, hdelta⟩
  · rw [hset_self]; rfl
  · rw [hset_self]; rfl
  · rw [hset_self]; rfl
  · rw [hset_self]; rfl
  · rw [hset_self]; rfl
  · rw [hset_ne ia hia]
  · rw [hset_ne ib hib]
  · rw [hset_ne idl hid]

/-- Claim C10, witness: state `stateC` with all three leaders at index 0,
updating the wolf at index 1. -/
theorem C10_update_wolf_frame_witness :
    ((updateWolfAt stateC 1 0).wolves.getD 1 default).fitness =
      (stateC.wolves.getD 1 default).fitness ∧
    ((updateWolfAt stateC 1 0).wolves.getD 1 default).pbest =
      (stateC.wolves.getD 1 default).pbest ∧
    ((updateWolfAt stateC 1 0).wolves.getD 1 default).pbest_fitness =
      (stateC.wolves.getD 1 default).pbest_fitness ∧
    ((updateWolfAt stateC 1 0).wolves.getD 1 default).num_tasks =
      (stateC.wolves.getD 1 default).num_tasks ∧
    ((updateWolfAt stateC 1 0).wolves.getD 1 default).num_hosts =
      (stateC.wolves.getD 1 default).num_hosts ∧
    (∀ i, i ≠ 1 →
      (updateWolfAt stateC 1 0).wolves.getD i default = stateC.wolves.getD i default) ∧
    ((updateWolfAt stateC 1 0).wolves.getD 0 default).position =
      (stateC.wolves.getD 0 default).position ∧
    ((updateWolfAt stateC 1 0).wolves.getD 0 default).position =
      (stateC.wolves.getD 0 default).position ∧
    ((updateWolfAt stateC 1 0).wolves.getD 0 default).position =
      (stateC.wolves.getD 0 default).position ∧
    (updateWolfAt stateC 1 0).alpha = stateC.alpha ∧
    (updateWolfAt stateC 1 0).beta = stateC.beta ∧
    (updateWolfAt stateC 1 0).delta = stateC.delta :=
  C10_update_wolf_frame stateC 1 0 0 0 0 rfl rfl rfl (by decide)
    (by decide) (by decide) (by decide)

end SIREN
